import Mathlib

/-!
Verification development for the DescriptiveEval evaluation backend: the
job-queue / worker-pool orchestrator observed by the `static/` dashboard,
plus the dashboard helper `formatDuration`.

The orchestrator core itself (WorkItem Store, Dispatcher, Worker, Pool
Manager, Status Reporter) is not part of the visible sources; its
definitions below are modelled from the specification.  The dashboard
helper `formatDuration` is embedded directly from
`src/static/script.js` (identical copy in `src/unnamed/part_000`).
-/

namespace DescriptiveEval

/-! ## Dashboard helper `formatDuration` (from `static/script.js`, lines 31-40) -/

/-- JavaScript `Math.trunc` on a rational: round toward zero. -/
def jsTrunc (q : ℚ) : ℤ := if 0 ≤ q then ⌊q⌋ else ⌈q⌉

/-- JavaScript `%` on rationals: `a - b * trunc(a / b)` (sign follows the dividend). -/
def jsMod (a b : ℚ) : ℚ := a - b * (jsTrunc (a / b) : ℚ)

/-- JavaScript `Math.floor` on a rational. -/
def jsFloor (q : ℚ) : ℤ := ⌊q⌋

/-- JavaScript `Math.round` on a rational: `floor(x + 0.5)` (ties toward +∞). -/
def jsRound (q : ℚ) : ℤ := ⌊q + 1/2⌋

/-- Embedding of `formatDuration(seconds)` from `static/script.js`.
`none` models the non-number falsy inputs (`null`, `undefined`, `NaN`);
a rational models a JavaScript number.  `!seconds` is true exactly on
those and on the number `0`. -/
def formatDuration : Option ℚ → String
  | none => "N/A"
  | some seconds =>
    if seconds = 0 then "N/A"
    else
      let hours : ℤ := jsFloor (seconds / 3600)
      let minutes : ℤ := jsFloor (jsMod seconds 3600 / 60)
      let remainingSeconds : ℤ := jsRound (jsMod seconds 60)
      if 0 < hours then
        toString hours ++ "h " ++ toString minutes ++ "m " ++
          toString remainingSeconds ++ "s"
      else
        toString minutes ++ "m " ++ toString remainingSeconds ++ "s"

/-! ## Data model (modelled from the spec, §3) -/

/-- Modelled from the spec: the state of a WorkItem
(`queued | evaluating | completed | failed | cancelled`, §3). -/
inductive JState where
  | queued
  | evaluating
  | completed
  | failed
  | cancelled
deriving DecidableEq, Repr

/-- Terminal states of a WorkItem (`completed`, `failed`, `cancelled`, §4.1). -/
def JState.isTerminal : JState → Bool
  | .completed => true
  | .failed => true
  | .cancelled => true
  | _ => false

/-- Modelled from the spec: the progress record of a WorkItem
(`{evaluated_count, total_count, phase}`, §3). -/
structure Progress where
  evaluated_count : Nat
  total_count : Nat
  phase : String
deriving DecidableEq, Repr

/-- Modelled from the spec: one WorkItem record (§3). -/
structure WorkItem where
  job_id : Nat
  quiz_id : String
  payload : String
  state : JState
  enqueued_at : Nat
  started_at : Option Nat
  finished_at : Option Nat
  error_message : Option String
  assigned_worker_id : Option Nat
  progress : Progress
deriving DecidableEq, Repr

/-- A WorkItem is active when it is not in a terminal state. -/
def WorkItem.isActive (i : WorkItem) : Bool := !i.state.isTerminal

/-- Modelled from the spec: worker status (`running | stopping | stopped`, §3). -/
inductive WStatus where
  | running
  | stopping
  | stopped
deriving DecidableEq, Repr

/-- Modelled from the spec: one Worker record (§3).  `pid` is the opaque
process identity of the execution context; `spawn_on_stop` records a
pending replacement request from a graceful kill (§4.4). -/
structure Worker where
  worker_id : Nat
  pid : Nat
  status : WStatus
  current_job_id : Option Nat
  spawn_on_stop : Bool
  cpu_percent : Nat
  memory_percent : Nat
  uptime_seconds : Nat
  jobs_completed : Nat
deriving DecidableEq, Repr

/-- Modelled from the spec: the orchestrator state — the WorkItem Store
contents, the worker fleet, the id/pid generators, the configured pool
size and a logical clock for timestamps. -/
structure OrchState where
  items : List WorkItem
  workers : List Worker
  nextJobId : Nat
  nextPid : Nat
  poolSize : Nat
  clock : Nat
deriving DecidableEq, Repr

/-- Look up a WorkItem by job id. -/
def findItem (s : OrchState) (j : Nat) : Option WorkItem :=
  s.items.find? (fun i => i.job_id == j)

/-- Look up a Worker by process identity. -/
def findWorker (s : OrchState) (p : Nat) : Option Worker :=
  s.workers.find? (fun w => w.pid == p)

/-! ## WorkItem Store (modelled from the spec, §4.1) -/

/-- Result of a `transition` call (§4.1, §7). -/
inductive TransResult where
  | ok
  | illegalTransition
  | alreadyTerminal
  | notFound
deriving DecidableEq, Repr

/-- Optional fields supplied with a `transition` call. -/
structure TFields where
  worker : Option Nat
  prog : Option Progress
  err : Option String
  time : Nat
deriving DecidableEq, Repr

/-- Modelled from the spec: the legal edges of the WorkItem state machine
(§4.1): `queued→evaluating` (assign), `evaluating→evaluating` (progress),
`evaluating→completed` (succeed), `evaluating→failed` (fail),
`queued|evaluating→cancelled` (cancel). -/
def legalEdge : JState → JState → Bool
  | .queued, .evaluating => true
  | .evaluating, .evaluating => true
  | .evaluating, .completed => true
  | .evaluating, .failed => true
  | .queued, .cancelled => true
  | .evaluating, .cancelled => true
  | _, _ => false

/-- Apply the field updates of a legal edge to a WorkItem (§4.1):
assignment records the worker and start time, the progress self-loop
replaces the progress record, terminal edges record the finish time,
and `error_message` is set only on the `failed` edge. -/
def applyEdge (i : WorkItem) (ns : JState) (f : TFields) : WorkItem :=
  match ns with
  | .evaluating =>
    if i.state = .queued then
      { i with state := .evaluating, assigned_worker_id := f.worker,
               started_at := some f.time }
    else
      { i with progress := f.prog.getD i.progress }
  | .completed => { i with state := .completed, finished_at := some f.time }
  | .failed => { i with state := .failed, finished_at := some f.time,
                        error_message := f.err }
  | .cancelled => { i with state := .cancelled, finished_at := some f.time }
  | .queued => i

/-- Pointwise item update used by `transition`: apply the edge to the
record with the matching job id and leave every other record alone. -/
def updFun (j : Nat) (ns : JState) (f : TFields) (x : WorkItem) : WorkItem :=
  if x.job_id == j then applyEdge x ns f else x

/-- Modelled from the spec: `transition(job_id, new_state, fields)` (§4.1).
Applies a state change only on a legal edge; a terminal record is left
unchanged and reported `alreadyTerminal`; an illegal edge is refused with
`illegalTransition`. -/
def transition (s : OrchState) (j : Nat) (ns : JState) (f : TFields) :
    TransResult × OrchState :=
  match s.items.find? (fun i => i.job_id == j) with
  | none => (.notFound, s)
  | some i =>
    if i.state.isTerminal then (.alreadyTerminal, s)
    else if legalEdge i.state ns then
      let items2 := s.items.map (updFun j ns f)
      (.ok, { s with items := items2 })
    else (.illegalTransition, s)

/-- True when a non-terminal WorkItem for this quiz exists. -/
def hasActive (s : OrchState) (q : String) : Bool :=
  s.items.any (fun i => i.quiz_id == q && i.isActive)

/-- Number of active (non-terminal) WorkItems for a quiz. -/
def activeCount (s : OrchState) (q : String) : Nat :=
  (s.items.filter (fun i => i.quiz_id == q && i.isActive)).length

/-- Result of `submit` (§4.1, §7). -/
inductive SubmitResult where
  | ok (job_id : Nat)
  | duplicateActiveJob
deriving DecidableEq, Repr

/-- Modelled from the spec: `submit(quiz_id, payload) -> job_id` (§4.1).
Fails with `DuplicateActiveJob` when a non-terminal WorkItem already
exists for the quiz; otherwise creates a `queued` WorkItem with a fresh
job id and returns that id. -/
def newItem (s : OrchState) (q payload : String) : WorkItem :=
  { job_id := s.nextJobId, quiz_id := q, payload := payload,
    state := .queued, enqueued_at := s.clock, started_at := none,
    finished_at := none, error_message := none,
    assigned_worker_id := none,
    progress := { evaluated_count := 0, total_count := 0, phase := "queued" } }

/-- Modelled from the spec: `submit`, continued — the fresh `queued`
WorkItem is appended and the generators advance. -/
def submit (s : OrchState) (q : String) (payload : String) :
    SubmitResult × OrchState :=
  if hasActive s q then (.duplicateActiveJob, s)
  else
    (.ok s.nextJobId,
      { s with items := s.items ++ [newItem s q payload],
               nextJobId := s.nextJobId + 1, clock := s.clock + 1 })

/-! ## Dispatcher (modelled from the spec, §4.2) -/

/-- An idle worker: `running` with no bound job (§4.2). -/
def Worker.isIdle (w : Worker) : Bool :=
  w.status == .running && w.current_job_id == none

/-- Modelled from the spec: dispatch eligibility (§4.2) — a `queued`
WorkItem whose quiz id has no other non-terminal WorkItem already bound
to a worker. -/
def eligible (s : OrchState) (i : WorkItem) : Bool :=
  i.state == .queued &&
    !(s.items.any (fun i2 => i2.job_id != i.job_id && i2.quiz_id == i.quiz_id &&
        i2.isActive && i2.assigned_worker_id != none))

/-- First WorkItem with minimal `enqueued_at` in a list (FIFO pick, §4.2). -/
def pickOldest : List WorkItem → Option WorkItem
  | [] => none
  | i :: is =>
    match pickOldest is with
    | none => some i
    | some b => if i.enqueued_at ≤ b.enqueued_at then some i else some b

/-- Bind a job to the worker with the given pid. -/
def bindWorker (ws : List Worker) (p : Nat) (j : Nat) : List Worker :=
  ws.map (fun w => if w.pid == p then { w with current_job_id := some j } else w)

/-- Clear the binding of every worker currently bound to job `j`; used on
completion, failure and cancellation, when "the Worker becomes idle
again" (§2).  `bump` additionally counts a completed job. -/
def unbindJob (ws : List Worker) (j : Nat) (bump : Bool) : List Worker :=
  ws.map (fun w =>
    if w.current_job_id == some j then
      { w with current_job_id := none,
               jobs_completed := w.jobs_completed + (if bump then 1 else 0) }
    else w)

/-- Modelled from the spec: one Dispatcher assignment step (§4.2).  When
the worker with pid `p` is idle and an eligible `queued` WorkItem exists,
the oldest such item (FIFO by `enqueued_at`) is transitioned to
`evaluating` and bound to that worker; the eligibility check and the bind
are one atomic step (a single state-to-state function). -/
def assignJob (s : OrchState) (p : Nat) (j : Nat) : OrchState :=
  match (transition s j .evaluating
      { worker := some p, prog := none, err := none, time := s.clock }).1 with
  | .ok =>
    { (transition s j .evaluating
        { worker := some p, prog := none, err := none, time := s.clock }).2 with
      workers := bindWorker (transition s j .evaluating
        { worker := some p, prog := none, err := none, time := s.clock }).2.workers p j }
  | _ => (transition s j .evaluating
      { worker := some p, prog := none, err := none, time := s.clock }).2

def dispatch (s : OrchState) (p : Nat) : OrchState :=
  match s.workers.find? (fun w => w.pid == p) with
  | none => s
  | some w =>
    if w.isIdle then
      match pickOldest (s.items.filter (eligible s)) with
      | none => s
      | some i => assignJob s p i.job_id
    else s

/-! ## Worker-side operations (modelled from the spec, §4.3) -/

/-- Modelled from the spec: a Worker pushes a progress update into the
bound WorkItem (§4.3); a progress update on a terminal record is
discarded (§5: cancellation wins). -/
def progressUpdate (s : OrchState) (j : Nat) (p : Progress) : OrchState :=
  (transition s j .evaluating
    { worker := none, prog := some p, err := none, time := s.clock }).2

/-- Shared terminal-transition step: apply `transition` to job `j` and,
when it succeeds, free every worker bound to `j` ("the Worker becomes
idle again", §2). -/
def finishJob (s : OrchState) (j : Nat) (ns : JState) (f : TFields)
    (b : Bool) : OrchState :=
  match (transition s j ns f).1 with
  | .ok =>
    { (transition s j ns f).2 with
        workers := unbindJob (transition s j ns f).2.workers j b }
  | _ => (transition s j ns f).2

/-- Modelled from the spec: the Worker reports success for its bound job
(§4.3); the WorkItem becomes `completed` and the worker is freed. -/
def succeed (s : OrchState) (j : Nat) : OrchState :=
  finishJob s j .completed
    { worker := none, prog := none, err := none, time := s.clock } true

/-- Modelled from the spec: the Worker reports failure for its bound job
with a human-readable message (§4.3); the WorkItem becomes `failed` and
the worker is freed. -/
def failJob (s : OrchState) (j : Nat) (msg : String) : OrchState :=
  finishJob s j .failed
    { worker := none, prog := none, err := some msg, time := s.clock } false

/-- Modelled from the spec: Stop a running job for a quiz (§6, `stopJob`
in `static/script.js`): cancels the active WorkItem for the quiz and
frees the worker bound to it; a no-op when no active WorkItem exists
(idempotent if already terminal). -/
def stopJob (s : OrchState) (q : String) : OrchState :=
  match s.items.find? (fun i => i.quiz_id == q && i.isActive) with
  | none => s
  | some i =>
    finishJob s i.job_id .cancelled
      { worker := none, prog := none, err := none, time := s.clock } false

/-! ## Pool Manager (modelled from the spec, §4.4) -/

/-- Kill mode (§4.3/§4.4): `graceful` or `immediate`. -/
inductive KillMode where
  | graceful
  | immediate
deriving DecidableEq, Repr

/-- A fresh replacement worker: a new process identity from the pid
generator, `running`, with no bound job. -/
def freshWorker (s : OrchState) : Worker :=
  { worker_id := s.nextPid, pid := s.nextPid, status := .running,
    current_job_id := none, spawn_on_stop := false, cpu_percent := 0,
    memory_percent := 0, uptime_seconds := 0, jobs_completed := 0 }

/-- Append a fresh replacement worker and advance the pid generator. -/
def addFresh (s : OrchState) : OrchState :=
  { s with workers := s.workers ++ [freshWorker s], nextPid := s.nextPid + 1 }

/-- Remove the worker with the given pid from the fleet. -/
def removeWorker (ws : List Worker) (p : Nat) : List Worker :=
  ws.filter (fun w => w.pid != p)

/-- Mark the worker with the given pid `stopping`, remembering whether a
replacement was requested (graceful kill, §4.3/§4.4). -/
def markStopping (ws : List Worker) (p : Nat) (sp : Bool) : List Worker :=
  ws.map (fun w2 =>
    if w2.pid == p then
      { w2 with status := .stopping, spawn_on_stop := sp }
    else w2)

/-- Remove the worker with pid `p` and, when requested, spawn a fresh
replacement to restore the fleet size. -/
def removeAndMaybeSpawn (s : OrchState) (p : Nat) (sp : Bool) : OrchState :=
  if sp then addFresh { s with workers := removeWorker s.workers p }
  else { s with workers := removeWorker s.workers p }

/-- Modelled from the spec: `kill(worker_id, mode, spawn_replacement)`
(§4.4).  A worker with no bound job is terminated immediately regardless
of mode.  `immediate` aborts the bound job — its WorkItem is transitioned
to `cancelled`, not `failed` (§4.3, and the spec's §9 resolution of the
TODO note "Killed jobs should be in canceled, not failed") — and removes
the worker; `graceful` marks the worker `stopping` and lets the bound job
run to completion (the later `reclaim` step removes it).  When
`spawn_replacement` is true a fresh worker restores the fleet size. -/
def kill (s : OrchState) (p : Nat) (mode : KillMode) (spawnReplacement : Bool) :
    OrchState :=
  match s.workers.find? (fun w => w.pid == p) with
  | none => s
  | some w =>
    match w.current_job_id with
    | none => removeAndMaybeSpawn s p spawnReplacement
    | some j =>
      match mode with
      | .graceful => { s with workers := markStopping s.workers p spawnReplacement }
      | .immediate =>
        removeAndMaybeSpawn
          (transition s j .cancelled
            { worker := none, prog := none, err := none, time := s.clock }).2
          p spawnReplacement

/-- Modelled from the spec: reclaim a gracefully stopping worker once its
bound job has finished (§4.3/§4.4): the worker is removed from the fleet,
and a replacement is spawned when the original kill requested one. -/
def reclaim (s : OrchState) (p : Nat) : OrchState :=
  match s.workers.find? (fun w => w.pid == p) with
  | none => s
  | some w =>
    if w.status == .stopping && w.current_job_id == none then
      removeAndMaybeSpawn s p w.spawn_on_stop
    else s

/-- Modelled from the spec: liveness-check detection of a worker whose
execution context disappeared without a clean `stopped` transition
(§4.4).  Any WorkItem it held is transitioned to `failed` with
`error_message = "worker terminated unexpectedly"`, the dead worker is
removed, and a replacement is spawned to restore the fleet size (the
spec calls this auto-recovery a required behavior). -/
def crash (s : OrchState) (p : Nat) : OrchState :=
  match s.workers.find? (fun w => w.pid == p) with
  | none => s
  | some w =>
    match w.current_job_id with
    | none => removeAndMaybeSpawn s p true
    | some j =>
      removeAndMaybeSpawn
        (transition s j .failed
          { worker := none, prog := none,
            err := some "worker terminated unexpectedly", time := s.clock }).2
        p true

/-! ## Status Reporter (modelled from the spec, §4.5) -/

/-- Modelled from the spec: the derived `QueueSnapshot` (§3). -/
structure QueueSnapshot where
  queued : List WorkItem
  failed : List WorkItem
  completed : List WorkItem
  active_workers : Nat
deriving DecidableEq, Repr

/-- Modelled from the spec: `queue_summary()` (§4.5) — counts and lists
partitioned by state, paired with the (unchanged) orchestrator state. -/
def queue_summary (s : OrchState) : QueueSnapshot × OrchState :=
  ({ queued := s.items.filter (fun i => i.isActive),
     failed := s.items.filter (fun i => i.state == .failed),
     completed := s.items.filter (fun i => i.state == .completed),
     active_workers := (s.workers.filter (fun w => w.status == .running)).length },
   s)

/-- Modelled from the spec: `job_status(quiz_id)` (§4.5) — the live
WorkItem for the quiz, `none` (NotFound) when no record exists. -/
def job_status (s : OrchState) (q : String) : Option WorkItem × OrchState :=
  (s.items.find? (fun i => i.quiz_id == q), s)

/-- Modelled from the spec: `worker_status()` (§4.4/§4.5) — the full
fleet snapshot. -/
def worker_status (s : OrchState) : List Worker × OrchState :=
  (s.workers, s)

/-- Modelled from the spec: the store read `get(job_id)` (§4.1). -/
def get (s : OrchState) (j : Nat) : Option WorkItem × OrchState :=
  (findItem s j, s)

/-- Modelled from the spec: the store read `get_by_quiz(quiz_id)` (§4.1). -/
def get_by_quiz (s : OrchState) (q : String) : Option WorkItem × OrchState :=
  (s.items.find? (fun i => i.quiz_id == q), s)

/-- Modelled from the spec: the store read `list(state_filter)` (§4.1). -/
def listByState (s : OrchState) (st : JState) : List WorkItem × OrchState :=
  (s.items.filter (fun i => i.state == st), s)

/-! ## System steps and reachability -/

/-- Modelled from the spec: the operations of the orchestrator (§2-§6). -/
inductive Op where
  | submit (quiz payload : String)
  | dispatch (pid : Nat)
  | progress (job : Nat) (p : Progress)
  | succeed (job : Nat)
  | fail (job : Nat) (msg : String)
  | stopJob (quiz : String)
  | kill (pid : Nat) (mode : KillMode) (spawnReplacement : Bool)
  | reclaim (pid : Nat)
  | crash (pid : Nat)
deriving DecidableEq, Repr

/-- Apply one operation to the orchestrator state. -/
def applyOp (s : OrchState) : Op → OrchState
  | .submit q pl => (submit s q pl).2
  | .dispatch p => dispatch s p
  | .progress j pr => progressUpdate s j pr
  | .succeed j => succeed s j
  | .fail j msg => failJob s j msg
  | .stopJob q => stopJob s q
  | .kill p m sp => kill s p m sp
  | .reclaim p => reclaim s p
  | .crash p => crash s p

/-- Apply a list of operations in order. -/
def applyTrace (t : List Op) (s : OrchState) : OrchState :=
  t.foldl applyOp s

/-- The initial fleet: `n` running workers with pids `0..n-1`. -/
def initWorker (k : Nat) : Worker :=
  { worker_id := k, pid := k, status := .running, current_job_id := none,
    spawn_on_stop := false, cpu_percent := 0, memory_percent := 0,
    uptime_seconds := 0, jobs_completed := 0 }

/-- The initial fleet: `n` running workers with pids `0..n-1`. -/
def initWorkers (n : Nat) : List Worker :=
  (List.range n).map initWorker

/-- The initial orchestrator state with a configured pool of `n` workers. -/
def initState (n : Nat) : OrchState :=
  { items := [], workers := initWorkers n, nextJobId := 0, nextPid := n,
    poolSize := n, clock := 0 }

/-- Reachable orchestrator states: every state obtained from an initial
state by a sequence of operations. -/
inductive Reachable : OrchState → Prop where
  | init (n : Nat) : Reachable (initState n)
  | step {s : OrchState} (op : Op) : Reachable s → Reachable (applyOp s op)

/-! ## Generic list lemmas -/

theorem two_le_length_of_mem {α : Type} {a b : α} {l : List α}
    (ha : a ∈ l) (hb : b ∈ l) (hne : a ≠ b) : 2 ≤ l.length := by
  induction l with
  | nil => cases ha
  | cons x xs ih =>
    rcases List.mem_cons.mp ha with rfl | ha2
    · rcases List.mem_cons.mp hb with rfl | hb2
      · exact absurd rfl hne
      · have : 0 < xs.length := List.length_pos.mpr (List.ne_nil_of_mem hb2)
        simpa [List.length_cons] using Nat.succ_le_succ this
    · rcases List.mem_cons.mp hb with rfl | hb2
      · have : 0 < xs.length := List.length_pos.mpr (List.ne_nil_of_mem ha2)
        simpa [List.length_cons] using Nat.succ_le_succ this
      · exact le_trans (ih ha2 hb2) (by simp [List.length_cons])

theorem key_inj {α β : Type} {f : α → β} {l : List α}
    (h : (l.map f).Nodup) {a b : α} (ha : a ∈ l) (hb : b ∈ l)
    (hf : f a = f b) : a = b := by
  induction l with
  | nil => cases ha
  | cons x xs ih =>
    have h' : (∀ y ∈ xs, ¬ f y = f x) ∧ (xs.map f).Nodup := by simpa using h
    rcases List.mem_cons.mp ha with rfl | ha2
    · rcases List.mem_cons.mp hb with rfl | hb2
      · rfl
      · exact absurd hf.symm (h'.1 b hb2)
    · rcases List.mem_cons.mp hb with rfl | hb2
      · exact absurd hf (h'.1 a ha2)
      · exact ih h'.2 ha2 hb2

/-- Length of a filter does not grow under a pointwise map that never
turns a non-matching element into a matching one. -/
theorem filter_length_map_le {α : Type} (g : α → α) (p : α → Bool)
    (hg : ∀ x, p (g x) = true → p x = true) (l : List α) :
    ((l.map g).filter p).length ≤ (l.filter p).length := by
  induction l with
  | nil => simp
  | cons x xs ih =>
    by_cases hx : p (g x) = true
    · have hx2 : p x = true := hg x hx
      simp [List.filter_cons, hx, hx2, Nat.succ_le_succ ih]
    · have hx' : p (g x) = false := by
        cases hpg : p (g x) with
        | true => exact absurd hpg hx
        | false => rfl
      cases hx2 : p x with
      | true => simp [List.filter_cons, hx', hx2]; exact le_trans ih (Nat.le_succ _)
      | false => simpa [List.filter_cons, hx', hx2] using ih

theorem find?_map_pres {α : Type} (g : α → α) (p : α → Bool)
    (hg : ∀ x, p (g x) = p x) (l : List α) :
    (l.map g).find? p = (l.find? p).map g := by
  induction l with
  | nil => simp
  | cons x xs ih =>
    cases hx : p x with
    | true => simp [List.find?, hg x, hx]
    | false => simpa [List.find?, hg x, hx] using ih

theorem find?_append_left {α : Type} {p : α → Bool} {l1 : List α}
    {a : α} (l2 : List α) (h : l1.find? p = some a) :
    (l1 ++ l2).find? p = some a := by
  simp [List.find?_append, h]

theorem filterMap_map_sublist {α β : Type} (g : α → α) (f : α → Option β)
    (hg : ∀ x, f (g x) = f x ∨ f (g x) = none) (l : List α) :
    ((l.map g).filterMap f).Sublist (l.filterMap f) := by
  induction l with
  | nil => simp
  | cons x xs ih =>
    rcases hg x with h | h
    · cases hfx : f x with
      | none => simpa [List.filterMap_cons, h, hfx] using ih
      | some b =>
        simpa [List.filterMap_cons, h, hfx] using List.Sublist.cons₂ b ih
    · cases hfx : f x with
      | none => simpa [List.filterMap_cons, h, hfx] using ih
      | some b =>
        simp only [List.map_cons, List.filterMap_cons, h, hfx]
        exact List.Sublist.cons b ih

theorem map_map_eq {α β : Type} (g : α → α) (f : α → β)
    (hg : ∀ x, f (g x) = f x) (l : List α) : (l.map g).map f = l.map f := by
  induction l with
  | nil => rfl
  | cons x xs ih => simp [hg x, ih]

/-! ## Pointwise facts about `applyEdge` and `updFun` -/

theorem applyEdge_job_id (x : WorkItem) (ns : JState) (f : TFields) :
    (applyEdge x ns f).job_id = x.job_id := by
  cases ns <;> simp only [applyEdge]
  split <;> rfl

theorem applyEdge_quiz_id (x : WorkItem) (ns : JState) (f : TFields) :
    (applyEdge x ns f).quiz_id = x.quiz_id := by
  cases ns <;> simp only [applyEdge]
  split <;> rfl

theorem applyEdge_active (x : WorkItem) (ns : JState) (f : TFields)
    (h : (applyEdge x ns f).isActive = true) : x.isActive = true := by
  cases ns
  · exact h
  · by_cases hq : x.state = .queued
    · simp [WorkItem.isActive, hq, JState.isTerminal]
    · simp only [applyEdge, if_neg hq] at h
      simpa [WorkItem.isActive] using h
  · simp [applyEdge, WorkItem.isActive, JState.isTerminal] at h
  · simp [applyEdge, WorkItem.isActive, JState.isTerminal] at h
  · simp [applyEdge, WorkItem.isActive, JState.isTerminal] at h

theorem updFun_job_id (j : Nat) (ns : JState) (f : TFields) (x : WorkItem) :
    (updFun j ns f x).job_id = x.job_id := by
  unfold updFun
  split
  · exact applyEdge_job_id x ns f
  · rfl

theorem updFun_quiz_id (j : Nat) (ns : JState) (f : TFields) (x : WorkItem) :
    (updFun j ns f x).quiz_id = x.quiz_id := by
  unfold updFun
  split
  · exact applyEdge_quiz_id x ns f
  · rfl

theorem updFun_active (j : Nat) (ns : JState) (f : TFields) (x : WorkItem)
    (h : (updFun j ns f x).isActive = true) : x.isActive = true := by
  unfold updFun at h
  split at h
  · exact applyEdge_active x ns f h
  · exact h

theorem updFun_of_ne (j : Nat) (ns : JState) (f : TFields) (x : WorkItem)
    (h : x.job_id ≠ j) : updFun j ns f x = x := by
  simp [updFun, h]

/-- Non-terminal states are `queued` or `evaluating`. -/
theorem not_terminal_cases {st : JState} (h : st.isTerminal = false) :
    st = .queued ∨ st = .evaluating := by
  cases st <;> simp_all [JState.isTerminal]

/-- Cancellation is a legal edge from any non-terminal state. -/
theorem legalEdge_cancel {st : JState} (h : st.isTerminal = false) :
    legalEdge st .cancelled = true := by
  rcases not_terminal_cases h with rfl | rfl <;> rfl

/-! ## Shape of `transition` -/

theorem transition_snd_cases (s : OrchState) (j : Nat) (ns : JState) (f : TFields) :
    ((transition s j ns f).1 ≠ .ok ∧ (transition s j ns f).2 = s) ∨
    ((transition s j ns f).1 = .ok ∧
      (transition s j ns f).2 = { s with items := s.items.map (updFun j ns f) } ∧
      ∃ i, s.items.find? (fun x => x.job_id == j) = some i ∧
        i.state.isTerminal = false ∧ legalEdge i.state ns = true) := by
  unfold transition
  cases hf : s.items.find? (fun x => x.job_id == j) with
  | none => left; exact ⟨by simp, rfl⟩
  | some i =>
    by_cases ht : i.state.isTerminal = true
    · left; refine ⟨by simp [ht], by simp [ht]⟩
    · have ht' : i.state.isTerminal = false := by simp_all
      by_cases hl : legalEdge i.state ns = true
      · right
        refine ⟨by simp [ht', hl], by simp [ht', hl], i, rfl, ht', hl⟩
      · left
        refine ⟨by simp [ht', hl], by simp [ht', hl]⟩

theorem transition_workers (s : OrchState) (j : Nat) (ns : JState) (f : TFields) :
    (transition s j ns f).2.workers = s.workers := by
  rcases transition_snd_cases s j ns f with ⟨_, h⟩ | ⟨_, h, _⟩ <;> rw [h]

theorem transition_nextJobId (s : OrchState) (j : Nat) (ns : JState) (f : TFields) :
    (transition s j ns f).2.nextJobId = s.nextJobId := by
  rcases transition_snd_cases s j ns f with ⟨_, h⟩ | ⟨_, h, _⟩ <;> rw [h]

theorem transition_nextPid (s : OrchState) (j : Nat) (ns : JState) (f : TFields) :
    (transition s j ns f).2.nextPid = s.nextPid := by
  rcases transition_snd_cases s j ns f with ⟨_, h⟩ | ⟨_, h, _⟩ <;> rw [h]

theorem transition_not_ok (s : OrchState) (j : Nat) (ns : JState) (f : TFields)
    (h : (transition s j ns f).1 ≠ .ok) : (transition s j ns f).2 = s := by
  rcases transition_snd_cases s j ns f with ⟨_, h2⟩ | ⟨hok, _, _⟩
  · exact h2
  · exact absurd hok h

/-! ## Well-formedness invariant of reachable orchestrator states -/

/-- Structural invariant maintained by every operation: the dedup
invariant (at most one active WorkItem per quiz), freshness and
distinctness of worker pids and job ids, and consistency of the
worker/job bindings (a bound job is an `evaluating` WorkItem, and no two
workers are bound to the same job). -/
def WF (s : OrchState) : Prop :=
  (∀ q, activeCount s q ≤ 1) ∧
  (s.workers.map Worker.pid).Nodup ∧
  (∀ w ∈ s.workers, w.pid < s.nextPid) ∧
  (s.items.map WorkItem.job_id).Nodup ∧
  (∀ i ∈ s.items, i.job_id < s.nextJobId) ∧
  (∀ w ∈ s.workers, ∀ j, w.current_job_id = some j →
    ∃ i ∈ s.items, i.job_id = j ∧ i.state = .evaluating) ∧
  (∀ w1 ∈ s.workers, ∀ w2 ∈ s.workers, ∀ j : Nat,
    w1.current_job_id = some j → w2.current_job_id = some j → w1 = w2)

theorem activeCount_map_le (items : List WorkItem) (j : Nat) (ns : JState)
    (f : TFields) (q : String) :
    ((items.map (updFun j ns f)).filter
        (fun i => i.quiz_id == q && i.isActive)).length ≤
      (items.filter (fun i => i.quiz_id == q && i.isActive)).length := by
  refine filter_length_map_le _ _ (fun x hx => ?_) items
  have h1 := (Bool.and_eq_true _ _).mp hx
  refine (Bool.and_eq_true _ _).mpr ⟨?_, updFun_active j ns f x h1.2⟩
  rw [← updFun_quiz_id j ns f x]
  exact h1.1

theorem transition_activeCount_le (s : OrchState) (j : Nat) (ns : JState)
    (f : TFields) (q : String) :
    activeCount (transition s j ns f).2 q ≤ activeCount s q := by
  rcases transition_snd_cases s j ns f with ⟨_, heq⟩ | ⟨_, heq, _⟩
  · rw [heq]
  · rw [heq]
    exact activeCount_map_le s.items j ns f q

theorem transition_jobIds (s : OrchState) (j : Nat) (ns : JState) (f : TFields) :
    (transition s j ns f).2.items.map WorkItem.job_id =
      s.items.map WorkItem.job_id := by
  rcases transition_snd_cases s j ns f with ⟨_, heq⟩ | ⟨_, heq, _⟩
  · rw [heq]
  · rw [heq]
    exact map_map_eq _ _ (updFun_job_id j ns f) s.items

theorem transition_jobId_bound {s : OrchState} {j : Nat} {ns : JState}
    {f : TFields} {n : Nat} (h5 : ∀ i ∈ s.items, i.job_id < n) :
    ∀ i2 ∈ (transition s j ns f).2.items, i2.job_id < n := by
  intro i2 hi2
  have : i2.job_id ∈ (transition s j ns f).2.items.map WorkItem.job_id :=
    List.mem_map_of_mem _ hi2
  rw [transition_jobIds] at this
  rcases List.mem_map.mp this with ⟨x, hx, hxe⟩
  exact hxe ▸ h5 x hx

theorem applyEdge_evaluating (i : WorkItem) (f : TFields)
    (h : i.state = .evaluating) :
    (applyEdge i .evaluating f).state = .evaluating := by
  have hq : ¬ i.state = .queued := by rw [h]; intro hc; cases hc
  simp [applyEdge, hq, h]

/-- An `evaluating` record with a given job id survives a `transition`
call, provided the call targets a different job or is itself an
`evaluating` (assign / progress) edge. -/
theorem transition_evaluating_pres (s : OrchState) (j : Nat) (ns : JState)
    (f : TFields) {j' : Nat} {i : WorkItem} (hi : i ∈ s.items)
    (hij : i.job_id = j') (hev : i.state = .evaluating)
    (hcase : j' ≠ j ∨ ns = .evaluating) :
    ∃ i2 ∈ (transition s j ns f).2.items, i2.job_id = j' ∧
      i2.state = .evaluating := by
  rcases transition_snd_cases s j ns f with ⟨_, heq⟩ | ⟨_, heq, _⟩
  · rw [heq]
    exact ⟨i, hi, hij, hev⟩
  · rw [heq]
    refine ⟨updFun j ns f i, List.mem_map_of_mem _ hi, ?_, ?_⟩
    · rw [updFun_job_id, hij]
    · by_cases hj : i.job_id = j
      · rcases hcase with hne | rfl
        · exact absurd (hij ▸ hj) hne
        · have h2 : updFun j .evaluating f i = applyEdge i .evaluating f := by
            simp [updFun, hj]
          rw [h2]
          exact applyEdge_evaluating i f hev
      · rw [updFun_of_ne j ns f i hj]
        exact hev

/-! ## Worker-list facts -/

theorem unbindJob_pids (ws : List Worker) (j : Nat) (b : Bool) :
    (unbindJob ws j b).map Worker.pid = ws.map Worker.pid := by
  unfold unbindJob
  exact map_map_eq _ _ (fun u => by split <;> rfl) ws

theorem bindWorker_pids (ws : List Worker) (p j : Nat) :
    (bindWorker ws p j).map Worker.pid = ws.map Worker.pid := by
  unfold bindWorker
  exact map_map_eq _ _ (fun u => by split <;> rfl) ws

theorem markStopping_pids (ws : List Worker) (p : Nat) (sp : Bool) :
    (markStopping ws p sp).map Worker.pid = ws.map Worker.pid := by
  unfold markStopping
  exact map_map_eq _ _ (fun u => by split <;> rfl) ws

/-! ## Preservation of well-formedness by the fleet primitives -/

theorem wf_remove (s : OrchState) (p : Nat) (h : WF s) :
    WF { s with workers := removeWorker s.workers p } := by
  obtain ⟨h1, h2, h3, h4, h5, h6, h7⟩ := h
  have hsub : (removeWorker s.workers p).Sublist s.workers := List.filter_sublist _
  refine ⟨h1, ?_, ?_, h4, h5, ?_, ?_⟩
  · exact List.Nodup.sublist (hsub.map _) h2
  · intro w hw
    exact h3 w (hsub.subset hw)
  · intro w hw j hj
    exact h6 w (hsub.subset hw) j hj
  · intro w1 hw1 w2 hw2 j hj1 hj2
    exact h7 w1 (hsub.subset hw1) w2 (hsub.subset hw2) j hj1 hj2

theorem wf_addFresh (s : OrchState) (h : WF s) : WF (addFresh s) := by
  obtain ⟨h1, h2, h3, h4, h5, h6, h7⟩ := h
  refine ⟨h1, ?_, ?_, h4, h5, ?_, ?_⟩
  · show ((s.workers ++ [freshWorker s]).map Worker.pid).Nodup
    rw [List.map_append]
    rw [List.nodup_append]
    refine ⟨h2, List.nodup_singleton _, ?_⟩
    intro a ha hb
    rcases List.mem_map.mp ha with ⟨w, hw, rfl⟩
    have hlt := h3 w hw
    have : w.pid = s.nextPid := by simpa [freshWorker] using hb
    omega
  · intro w hw
    rcases List.mem_append.mp hw with hw2 | hw2
    · have := h3 w hw2
      show w.pid < s.nextPid + 1
      omega
    · have : w = freshWorker s := by simpa using hw2
      subst this
      show (freshWorker s).pid < s.nextPid + 1
      simp [freshWorker]
  · intro w hw j hj
    rcases List.mem_append.mp hw with hw2 | hw2
    · exact h6 w hw2 j hj
    · have : w = freshWorker s := by simpa using hw2
      subst this
      simp [freshWorker] at hj
  · intro w1 hw1 w2 hw2 j hj1 hj2
    rcases List.mem_append.mp hw1 with hw1b | hw1b
    · rcases List.mem_append.mp hw2 with hw2b | hw2b
      · exact h7 w1 hw1b w2 hw2b j hj1 hj2
      · have : w2 = freshWorker s := by simpa using hw2b
        subst this
        simp [freshWorker] at hj2
    · have : w1 = freshWorker s := by simpa using hw1b
      subst this
      simp [freshWorker] at hj1

theorem wf_markStopping (s : OrchState) (p : Nat) (sp : Bool) (h : WF s) :
    WF { s with workers := markStopping s.workers p sp } := by
  obtain ⟨h1, h2, h3, h4, h5, h6, h7⟩ := h
  refine ⟨h1, ?_, ?_, h4, h5, ?_, ?_⟩
  · show ((markStopping s.workers p sp).map Worker.pid).Nodup
    rw [markStopping_pids]
    exact h2
  · intro w hw
    unfold markStopping at hw
    rcases List.mem_map.mp hw with ⟨u, hu, rfl⟩
    show _ < s.nextPid
    have hpid : ((if u.pid == p then
        { u with status := WStatus.stopping, spawn_on_stop := sp }
      else u) : Worker).pid = u.pid := by split <;> rfl
    rw [hpid]
    exact h3 u hu
  · intro w hw j hj
    unfold markStopping at hw
    rcases List.mem_map.mp hw with ⟨u, hu, rfl⟩
    have hcj : ((if u.pid == p then
        { u with status := WStatus.stopping, spawn_on_stop := sp }
      else u) : Worker).current_job_id = u.current_job_id := by split <;> rfl
    rw [hcj] at hj
    exact h6 u hu j hj
  · intro w1 hw1 w2 hw2 j hj1 hj2
    unfold markStopping at hw1 hw2
    rcases List.mem_map.mp hw1 with ⟨u1, hu1, rfl⟩
    rcases List.mem_map.mp hw2 with ⟨u2, hu2, rfl⟩
    have hcj1 : ((if u1.pid == p then
        { u1 with status := WStatus.stopping, spawn_on_stop := sp }
      else u1) : Worker).current_job_id = u1.current_job_id := by split <;> rfl
    have hcj2 : ((if u2.pid == p then
        { u2 with status := WStatus.stopping, spawn_on_stop := sp }
      else u2) : Worker).current_job_id = u2.current_job_id := by split <;> rfl
    rw [hcj1] at hj1
    rw [hcj2] at hj2
    have : u1 = u2 := h7 u1 hu1 u2 hu2 j hj1 hj2
    rw [this]

/-- Progress / assign transitions preserve well-formedness (the workers
are untouched and an `evaluating` record stays `evaluating`). -/
theorem wf_transition_eval (s : OrchState) (j : Nat) (f : TFields) (h : WF s) :
    WF (transition s j .evaluating f).2 := by
  obtain ⟨h1, h2, h3, h4, h5, h6, h7⟩ := h
  refine ⟨?_, ?_, ?_, ?_, ?_, ?_, ?_⟩
  · intro q
    exact le_trans (transition_activeCount_le s j _ f q) (h1 q)
  · rw [transition_workers]
    exact h2
  · rw [transition_workers, transition_nextPid]
    exact h3
  · rw [transition_jobIds]
    exact h4
  · intro i2 hi2
    rw [transition_nextJobId]
    exact transition_jobId_bound h5 i2 hi2
  · rw [transition_workers]
    intro w hw j1 hj1
    obtain ⟨i, hi, hij, hev⟩ := h6 w hw j1 hj1
    exact transition_evaluating_pres s j .evaluating f hi hij hev (Or.inr rfl)
  · rw [transition_workers]
    exact h7

/-- The shared terminal step (`succeed` / `fail` / `cancel` plus freeing
the bound workers) preserves well-formedness. -/
theorem wf_finishJob (s : OrchState) (j : Nat) (ns : JState) (f : TFields)
    (b : Bool) (h : WF s) : WF (finishJob s j ns f b) := by
  unfold finishJob
  rcases transition_snd_cases s j ns f with ⟨hne, heq⟩ | ⟨hok, heq, i0, hf0, ht0, hl0⟩
  · cases hr : (transition s j ns f).1 with
    | ok => exact absurd hr hne
    | illegalTransition => rw [heq] at *; exact h
    | alreadyTerminal => rw [heq] at *; exact h
    | notFound => rw [heq] at *; exact h
  · obtain ⟨h1, h2, h3, h4, h5, h6, h7⟩ := h
    cases hr : (transition s j ns f).1 with
    | illegalTransition => rw [hok] at hr; cases hr
    | alreadyTerminal => rw [hok] at hr; cases hr
    | notFound => rw [hok] at hr; cases hr
    | ok =>
      rw [heq]
      show WF { items := s.items.map (updFun j ns f),
                workers := unbindJob s.workers j b, nextJobId := s.nextJobId,
                nextPid := s.nextPid, poolSize := s.poolSize, clock := s.clock }
      refine ⟨?_, ?_, ?_, ?_, ?_, ?_, ?_⟩
      · intro q
        exact le_trans (activeCount_map_le s.items j ns f q) (h1 q)
      · show ((unbindJob _ j b).map Worker.pid).Nodup
        rw [unbindJob_pids]
        exact h2
      · intro w hw
        unfold unbindJob at hw
        rcases List.mem_map.mp hw with ⟨u, hu, rfl⟩
        have hpid : ((if u.current_job_id == some j then
            { u with current_job_id := none,
                     jobs_completed := u.jobs_completed + (if b then 1 else 0) }
          else u) : Worker).pid = u.pid := by split <;> rfl
        show _ < s.nextPid
        rw [hpid]
        exact h3 u hu
      · show ((s.items.map (updFun j ns f)).map WorkItem.job_id).Nodup
        rw [map_map_eq _ _ (updFun_job_id j ns f)]
        exact h4
      · intro i2 hi2
        rcases List.mem_map.mp hi2 with ⟨x, hx, rfl⟩
        show _ < s.nextJobId
        rw [updFun_job_id]
        exact h5 x hx
      · intro w hw j1 hj1
        unfold unbindJob at hw
        rcases List.mem_map.mp hw with ⟨u, hu, rfl⟩
        by_cases hcj : (u.current_job_id == some j) = true
        · rw [if_pos hcj] at hj1
          cases hj1
        · rw [if_neg hcj] at hj1
          have hne1 : u.current_job_id ≠ some j := by
            intro hc
            rw [hc] at hcj
            simp at hcj
          obtain ⟨i, hi, hij, hev⟩ := h6 u hu j1 hj1
          have hj1j : j1 ≠ j := by
            intro hc
            rw [hc] at hj1
            exact hne1 hj1
          have hpres := transition_evaluating_pres s j ns f hi hij hev (Or.inl hj1j)
          rw [heq] at hpres
          exact hpres
      · intro w1 hw1 w2 hw2 j1 hj1 hj2
        unfold unbindJob at hw1 hw2
        rcases List.mem_map.mp hw1 with ⟨u1, hu1, rfl⟩
        rcases List.mem_map.mp hw2 with ⟨u2, hu2, rfl⟩
        by_cases hc1 : (u1.current_job_id == some j) = true
        · rw [if_pos hc1] at hj1
          cases hj1
        · by_cases hc2 : (u2.current_job_id == some j) = true
          · rw [if_pos hc2] at hj2
            cases hj2
          · rw [if_neg hc1] at hj1
            rw [if_neg hc2] at hj2
            rw [if_neg hc1, if_neg hc2, h7 u1 hu1 u2 hu2 j1 hj1 hj2]

/-! ## More helpers -/

theorem pickOldest_eq_none {l : List WorkItem} (h : pickOldest l = none) :
    l = [] := by
  cases l with
  | nil => rfl
  | cons x xs =>
    unfold pickOldest at h
    split at h
    · cases h
    · split at h <;> cases h

theorem pickOldest_mem {l : List WorkItem} :
    ∀ {i : WorkItem}, pickOldest l = some i → i ∈ l := by
  induction l with
  | nil => intro i h; cases h
  | cons x xs ih =>
    intro i h
    unfold pickOldest at h
    split at h
    · cases h
      exact List.mem_cons_self x xs
    · next b heq =>
      split at h
      · cases h
        exact List.mem_cons_self x xs
      · cases h
        exact List.mem_cons_of_mem x (ih heq)

theorem pickOldest_min {l : List WorkItem} :
    ∀ {i : WorkItem}, pickOldest l = some i →
      ∀ x ∈ l, i.enqueued_at ≤ x.enqueued_at := by
  induction l with
  | nil => intro i h; cases h
  | cons x xs ih =>
    intro i h y hy
    unfold pickOldest at h
    split at h
    · next heq =>
      cases h
      have hxs : xs = [] := pickOldest_eq_none heq
      subst hxs
      rcases List.mem_cons.mp hy with rfl | hy2
      · exact le_refl _
      · cases hy2
    · next b heq =>
      split at h
      · next hle =>
        cases h
        rcases List.mem_cons.mp hy with rfl | hy2
        · exact le_refl _
        · exact le_trans hle (ih heq y hy2)
      · next hle =>
        cases h
        rcases List.mem_cons.mp hy with rfl | hy2
        · omega
        · exact ih heq y hy2

theorem activeCount_eq_zero_of_not_hasActive {s : OrchState} {q : String}
    (hd : hasActive s q = false) : activeCount s q = 0 := by
  unfold hasActive at hd
  unfold activeCount
  rw [List.length_eq_zero, List.filter_eq_nil_iff]
  intro a ha hpa
  have h2 : s.items.any (fun i => i.quiz_id == q && i.isActive) = true :=
    List.any_eq_true.mpr ⟨a, ha, hpa⟩
  rw [hd] at h2
  cases h2

theorem activeCount_pos_of_hasActive {s : OrchState} {q : String}
    (hd : hasActive s q = true) : 1 ≤ activeCount s q := by
  unfold hasActive at hd
  rcases List.any_eq_true.mp hd with ⟨x, hx, hpx⟩
  have hmem : x ∈ s.items.filter (fun i => i.quiz_id == q && i.isActive) := by
    rw [List.mem_filter]
    exact ⟨hx, hpx⟩
  have h2 := List.length_pos.mpr (List.ne_nil_of_mem hmem)
  unfold activeCount
  omega

theorem applyEdge_eval_state (i : WorkItem) (f : TFields)
    (h : i.state.isTerminal = false) :
    (applyEdge i .evaluating f).state = .evaluating := by
  rcases not_terminal_cases h with hq | he
  · simp [applyEdge, hq]
  · exact applyEdge_evaluating i f he

/-! ## Preservation by the remaining operations -/

theorem wf_submit (s : OrchState) (q pl : String) (h : WF s) :
    WF (submit s q pl).2 := by
  obtain ⟨h1, h2, h3, h4, h5, h6, h7⟩ := h
  unfold submit
  by_cases hd : hasActive s q = true
  · rw [if_pos hd]
    exact ⟨h1, h2, h3, h4, h5, h6, h7⟩
  · have hd' : hasActive s q = false := by simp_all
    rw [if_neg hd]
    show WF { items := s.items ++ [newItem s q pl], workers := s.workers,
              nextJobId := s.nextJobId + 1, nextPid := s.nextPid,
              poolSize := s.poolSize, clock := s.clock + 1 }
    refine ⟨?_, h2, h3, ?_, ?_, ?_, h7⟩
    · intro q2
      show ((s.items ++ [newItem s q pl]).filter
        (fun i => i.quiz_id == q2 && i.isActive)).length ≤ 1
      rw [List.filter_append, List.length_append]
      by_cases hqq : q = q2
      · subst hqq
        have hz := activeCount_eq_zero_of_not_hasActive hd'
        unfold activeCount at hz
        rw [hz]
        have : ((newItem s q pl).quiz_id == q && (newItem s q pl).isActive) = true := by
          simp [newItem, WorkItem.isActive, JState.isTerminal]
        simp [List.filter, this]
      · have : ((newItem s q pl).quiz_id == q2 && (newItem s q pl).isActive) = false := by
          have : ((newItem s q pl).quiz_id == q2) = false := by
            simp [newItem]
            exact hqq
          simp [this]
        simp only [List.filter, this]
        have := h1 q2
        unfold activeCount at this
        simpa using this
    · show ((s.items ++ [newItem s q pl]).map WorkItem.job_id).Nodup
      rw [List.map_append]
      rw [List.nodup_append]
      refine ⟨h4, by simp, ?_⟩
      intro a ha hb
      rcases List.mem_map.mp ha with ⟨x, hx, rfl⟩
      have hlt := h5 x hx
      have : x.job_id = s.nextJobId := by simpa [newItem] using hb
      omega
    · intro i hi
      rcases List.mem_append.mp hi with hi2 | hi2
      · have := h5 i hi2
        show i.job_id < s.nextJobId + 1
        omega
      · have : i = newItem s q pl := by simpa using hi2
        subst this
        show (newItem s q pl).job_id < s.nextJobId + 1
        simp [newItem]
    · intro w hw j hj
      obtain ⟨i, hi, hij, hev⟩ := h6 w hw j hj
      exact ⟨i, List.mem_append_left _ hi, hij, hev⟩

theorem wf_removeAndMaybeSpawn (s : OrchState) (p : Nat) (sp : Bool)
    (h : WF s) : WF (removeAndMaybeSpawn s p sp) := by
  unfold removeAndMaybeSpawn
  split
  · exact wf_addFresh _ (wf_remove s p h)
  · exact wf_remove s p h

/-- Cancelling / failing the job bound to the worker being removed keeps
the state well-formed: the only binding to the transitioned job is the
removed worker's own. -/
theorem wf_transition_remove (s : OrchState) (p j : Nat) (ns : JState)
    (f : TFields) (w : Worker) (hwm : w ∈ s.workers) (hwp : w.pid = p)
    (hcj : w.current_job_id = some j) (h : WF s) :
    WF { (transition s j ns f).2 with
         workers := removeWorker (transition s j ns f).2.workers p } := by
  obtain ⟨h1, h2, h3, h4, h5, h6, h7⟩ := h
  rcases transition_snd_cases s j ns f with ⟨hne, heq⟩ | ⟨hok, heq, i0, hf0, ht0, hl0⟩
  · rw [heq]
    exact wf_remove s p ⟨h1, h2, h3, h4, h5, h6, h7⟩
  · rw [heq]
    show WF { items := s.items.map (updFun j ns f),
              workers := removeWorker s.workers p, nextJobId := s.nextJobId,
              nextPid := s.nextPid, poolSize := s.poolSize, clock := s.clock }
    have hsub : (removeWorker s.workers p).Sublist s.workers :=
      List.filter_sublist _
    refine ⟨?_, ?_, ?_, ?_, ?_, ?_, ?_⟩
    · intro q2
      exact le_trans (activeCount_map_le s.items j ns f q2) (h1 q2)
    · exact List.Nodup.sublist (hsub.map _) h2
    · intro w2 hw2
      exact h3 w2 (hsub.subset hw2)
    · show ((s.items.map (updFun j ns f)).map WorkItem.job_id).Nodup
      rw [map_map_eq _ _ (updFun_job_id j ns f)]
      exact h4
    · intro i2 hi2
      rcases List.mem_map.mp hi2 with ⟨x, hx, rfl⟩
      show _ < s.nextJobId
      rw [updFun_job_id]
      exact h5 x hx
    · intro w2 hw2 j1 hj1
      have hw2m : w2 ∈ s.workers := hsub.subset hw2
      have hw2p : w2.pid ≠ p := by
        have := List.of_mem_filter hw2
        simpa using this
      obtain ⟨i, hi, hij, hev⟩ := h6 w2 hw2m j1 hj1
      have hj1j : j1 ≠ j := by
        intro hc
        subst hc
        have := h7 w2 hw2m w hwm j1 hj1 hcj
        rw [this] at hw2p
        exact hw2p hwp
      have hpres := transition_evaluating_pres s j ns f hi hij hev (Or.inl hj1j)
      rw [heq] at hpres
      exact hpres
    · intro w1 hw1 w2 hw2 j1 hj1 hj2
      exact h7 w1 (hsub.subset hw1) w2 (hsub.subset hw2) j1 hj1 hj2

theorem wf_transition_removeSpawn (s : OrchState) (p j : Nat) (ns : JState)
    (f : TFields) (sp : Bool) (w : Worker) (hwm : w ∈ s.workers)
    (hwp : w.pid = p) (hcj : w.current_job_id = some j) (h : WF s) :
    WF (removeAndMaybeSpawn (transition s j ns f).2 p sp) := by
  unfold removeAndMaybeSpawn
  split
  · exact wf_addFresh _ (wf_transition_remove s p j ns f w hwm hwp hcj h)
  · exact wf_transition_remove s p j ns f w hwm hwp hcj h

/-- The atomic check-and-bind step preserves well-formedness, provided
no worker is already bound to the job being assigned. -/
theorem wf_assignJob (s : OrchState) (p j : Nat) (h : WF s)
    (hnb : ∀ u ∈ s.workers, u.current_job_id ≠ some j) :
    WF (assignJob s p j) := by
  obtain ⟨h1, h2, h3, h4, h5, h6, h7⟩ := h
  unfold assignJob
  cases hr : (transition s j .evaluating
      { worker := some p, prog := none, err := none, time := s.clock }).1 with
  | illegalTransition =>
    rw [transition_not_ok _ _ _ _ (by rw [hr]; intro hc; cases hc)]
    exact ⟨h1, h2, h3, h4, h5, h6, h7⟩
  | alreadyTerminal =>
    rw [transition_not_ok _ _ _ _ (by rw [hr]; intro hc; cases hc)]
    exact ⟨h1, h2, h3, h4, h5, h6, h7⟩
  | notFound =>
    rw [transition_not_ok _ _ _ _ (by rw [hr]; intro hc; cases hc)]
    exact ⟨h1, h2, h3, h4, h5, h6, h7⟩
  | ok =>
    rcases transition_snd_cases s j .evaluating
        { worker := some p, prog := none, err := none, time := s.clock } with
      ⟨hne, _⟩ | ⟨_, heq, i0, hf0, ht0, hl0⟩
    · exact absurd hr hne
    · rw [heq]
      have hi0m : i0 ∈ s.items := List.mem_of_find?_eq_some hf0
      have hi0j : i0.job_id = j := by simpa using List.find?_some hf0
      show WF { items := s.items.map (updFun j .evaluating
                  { worker := some p, prog := none, err := none, time := s.clock }),
                workers := bindWorker s.workers p j, nextJobId := s.nextJobId,
                nextPid := s.nextPid, poolSize := s.poolSize, clock := s.clock }
      refine ⟨?_, ?_, ?_, ?_, ?_, ?_, ?_⟩
      · intro q2
        exact le_trans (activeCount_map_le s.items j .evaluating _ q2) (h1 q2)
      · show ((bindWorker s.workers p j).map Worker.pid).Nodup
        rw [bindWorker_pids]
        exact h2
      · intro w2 hw2
        unfold bindWorker at hw2
        rcases List.mem_map.mp hw2 with ⟨u, hu, rfl⟩
        have hpid : ((if u.pid == p then
            { u with current_job_id := some j } else u) : Worker).pid = u.pid := by
          split <;> rfl
        show _ < s.nextPid
        rw [hpid]
        exact h3 u hu
      · show ((s.items.map (updFun j .evaluating _)).map WorkItem.job_id).Nodup
        rw [map_map_eq _ _ (updFun_job_id j .evaluating _)]
        exact h4
      · intro i2 hi2
        rcases List.mem_map.mp hi2 with ⟨x, hx, rfl⟩
        show _ < s.nextJobId
        rw [updFun_job_id]
        exact h5 x hx
      · intro w2 hw2 j1 hj1
        unfold bindWorker at hw2
        rcases List.mem_map.mp hw2 with ⟨u, hu, rfl⟩
        by_cases hup : (u.pid == p) = true
        · rw [if_pos hup] at hj1
          have hjj : j = j1 := by simpa using hj1
          subst hjj
          refine ⟨updFun j .evaluating _ i0, List.mem_map_of_mem _ hi0m, ?_, ?_⟩
          · rw [updFun_job_id]
            exact hi0j
          · have hupd : updFun j .evaluating
                { worker := some p, prog := none, err := none, time := s.clock } i0 =
                applyEdge i0 .evaluating
                  { worker := some p, prog := none, err := none, time := s.clock } := by
              simp [updFun, hi0j]
            rw [hupd]
            exact applyEdge_eval_state i0 _ ht0
        · rw [if_neg hup] at hj1
          obtain ⟨i, hi, hij, hev⟩ := h6 u hu j1 hj1
          have hpres := transition_evaluating_pres s j .evaluating
            { worker := some p, prog := none, err := none, time := s.clock }
            hi hij hev (Or.inr rfl)
          rw [heq] at hpres
          exact hpres
      · intro w1 hw1 w2 hw2 j1 hj1 hj2
        unfold bindWorker at hw1 hw2
        rcases List.mem_map.mp hw1 with ⟨u1, hu1, rfl⟩
        rcases List.mem_map.mp hw2 with ⟨u2, hu2, rfl⟩
        by_cases hc1 : (u1.pid == p) = true
        · by_cases hc2 : (u2.pid == p) = true
          · have hp1 : u1.pid = p := by simpa using hc1
            have hp2 : u2.pid = p := by simpa using hc2
            have : u1 = u2 := key_inj h2 hu1 hu2 (by rw [hp1, hp2])
            rw [this]
          · rw [if_pos hc1] at hj1
            rw [if_neg hc2] at hj2
            have hjj : j = j1 := by simpa using hj1
            subst hjj
            exact absurd hj2 (hnb u2 hu2)
        · by_cases hc2 : (u2.pid == p) = true
          · rw [if_neg hc1] at hj1
            rw [if_pos hc2] at hj2
            have hjj : j = j1 := by simpa using hj2
            subst hjj
            exact absurd hj1 (hnb u1 hu1)
          · rw [if_neg hc1] at hj1
            rw [if_neg hc2] at hj2
            rw [if_neg hc1, if_neg hc2, h7 u1 hu1 u2 hu2 j1 hj1 hj2]

theorem wf_dispatch (s : OrchState) (p : Nat) (h : WF s) :
    WF (dispatch s p) := by
  obtain ⟨h1, h2, h3, h4, h5, h6, h7⟩ := h
  unfold dispatch
  split
  · exact ⟨h1, h2, h3, h4, h5, h6, h7⟩
  · next w hw =>
    split
    · split
      · exact ⟨h1, h2, h3, h4, h5, h6, h7⟩
      · next i hpick =>
        have himem := pickOldest_mem hpick
        have hif := List.mem_filter.mp himem
        have hiq : i.state = .queued := by
          have he := hif.2
          unfold eligible at he
          have h2e := (Bool.and_eq_true _ _).mp he
          simpa using h2e.1
        have hnb : ∀ u ∈ s.workers, u.current_job_id ≠ some i.job_id := by
          intro u hu hc
          obtain ⟨i', hi', hij', hev'⟩ := h6 u hu i.job_id hc
          have hii : i' = i := key_inj h4 hi' hif.1 hij'
          rw [hii, hiq] at hev'
          cases hev'
        exact wf_assignJob s p i.job_id ⟨h1, h2, h3, h4, h5, h6, h7⟩ hnb
    · exact ⟨h1, h2, h3, h4, h5, h6, h7⟩

theorem wf_kill (s : OrchState) (p : Nat) (mode : KillMode) (sp : Bool)
    (h : WF s) : WF (kill s p mode sp) := by
  unfold kill
  split
  · exact h
  · next w hw =>
    have hwm : w ∈ s.workers := List.mem_of_find?_eq_some hw
    have hwp : w.pid = p := by simpa using List.find?_some hw
    split
    · exact wf_removeAndMaybeSpawn s p sp h
    · next j hcj =>
      split
      · exact wf_markStopping s p sp h
      · exact wf_transition_removeSpawn s p j .cancelled _ sp w hwm hwp hcj h

theorem wf_reclaim (s : OrchState) (p : Nat) (h : WF s) :
    WF (reclaim s p) := by
  unfold reclaim
  split
  · exact h
  · next w hw =>
    split
    · exact wf_removeAndMaybeSpawn s p w.spawn_on_stop h
    · exact h

theorem wf_crash (s : OrchState) (p : Nat) (h : WF s) : WF (crash s p) := by
  unfold crash
  split
  · exact h
  · next w hw =>
    have hwm : w ∈ s.workers := List.mem_of_find?_eq_some hw
    have hwp : w.pid = p := by simpa using List.find?_some hw
    split
    · exact wf_removeAndMaybeSpawn s p true h
    · next j hcj =>
      exact wf_transition_removeSpawn s p j .failed _ true w hwm hwp hcj h

theorem wf_init (n : Nat) : WF (initState n) := by
  refine ⟨?_, ?_, ?_, ?_, ?_, ?_, ?_⟩
  · intro q
    simp [activeCount, initState]
  · show ((initWorkers n).map Worker.pid).Nodup
    unfold initWorkers
    rw [List.map_map]
    have hco : Worker.pid ∘ initWorker = fun k => k := rfl
    rw [hco]
    simpa using List.nodup_range n
  · intro w hw
    simp only [initState, initWorkers, List.mem_map] at hw
    obtain ⟨k, hk, rfl⟩ := hw
    show k < n
    exact List.mem_range.mp hk
  · simp [initState]
  · intro i hi
    simp [initState] at hi
  · intro w hw j hj
    simp only [initState, initWorkers, List.mem_map] at hw
    obtain ⟨k, hk, rfl⟩ := hw
    cases hj
  · intro w1 hw1 w2 hw2 j hj1 hj2
    simp only [initState, initWorkers, List.mem_map] at hw1
    obtain ⟨k, hk, rfl⟩ := hw1
    cases hj1

theorem wf_applyOp (s : OrchState) (op : Op) (h : WF s) :
    WF (applyOp s op) := by
  cases op with
  | submit q pl => exact wf_submit s q pl h
  | dispatch p => exact wf_dispatch s p h
  | progress j pr => exact wf_transition_eval s j _ h
  | succeed j => exact wf_finishJob s j .completed _ true h
  | fail j msg => exact wf_finishJob s j .failed _ false h
  | stopJob q =>
    show WF (stopJob s q)
    unfold stopJob
    split
    · exact h
    · next i hf => exact wf_finishJob s i.job_id .cancelled _ false h
  | kill p m sp => exact wf_kill s p m sp h
  | reclaim p => exact wf_reclaim s p h
  | crash p => exact wf_crash s p h

/-- Every reachable orchestrator state is well-formed; in particular the
dedup invariant holds in every reachable state. -/
theorem reachable_wf {s : OrchState} (h : Reachable s) : WF s := by
  induction h with
  | init n => exact wf_init n
  | step op hs ih => exact wf_applyOp _ op ih

/-! ## Lookup lemmas used by the claim theorems -/

theorem find?_eq_of_mem_nodup {l : List WorkItem}
    (h : (l.map WorkItem.job_id).Nodup) {i : WorkItem} (hi : i ∈ l) :
    l.find? (fun x => x.job_id == i.job_id) = some i := by
  induction l with
  | nil => cases hi
  | cons x xs ih =>
    have h' : (∀ y ∈ xs, ¬ y.job_id = x.job_id) ∧
        (xs.map WorkItem.job_id).Nodup := by
      simpa using h
    rcases List.mem_cons.mp hi with rfl | hi2
    · simp [List.find?]
    · have hne : x.job_id ≠ i.job_id := fun hc => (h'.1 i hi2) hc.symm
      have hbe : (x.job_id == i.job_id) = false := by
        simpa using hne
      rw [List.find?_cons_of_neg _ (by simp [hbe])]
      exact ih h'.2 hi2

theorem transition_ok_eq {s : OrchState} {j : Nat} {ns : JState} (f : TFields)
    {i : WorkItem} (hf : s.items.find? (fun x => x.job_id == j) = some i)
    (ht : i.state.isTerminal = false) (hl : legalEdge i.state ns = true) :
    transition s j ns f =
      (.ok, { s with items := s.items.map (updFun j ns f) }) := by
  unfold transition
  rw [hf]
  simp [ht, hl]

theorem find?_filter_of_find? {α : Type} {pred fil : α → Bool} {l : List α}
    {w : α} (hf : l.find? pred = some w) (hfil : fil w = true) :
    (l.filter fil).find? pred = some w := by
  induction l with
  | nil => cases hf
  | cons x xs ih =>
    cases px : pred x with
    | true =>
      rw [List.find?_cons_of_pos _ px] at hf
      injection hf with hf
      subst hf
      rw [List.filter_cons, if_pos hfil]
      rw [List.find?_cons_of_pos _ px]
    | false =>
      rw [List.find?_cons_of_neg _ (by simp [px])] at hf
      rw [List.filter_cons]
      split
      · rw [List.find?_cons_of_neg _ (by simp [px])]
        exact ih hf
      · exact ih hf

/-- Items of the shared terminal step are exactly the items after the
underlying `transition` call. -/
theorem finishJob_items (s : OrchState) (j : Nat) (ns : JState) (f : TFields)
    (b : Bool) : (finishJob s j ns f b).items = (transition s j ns f).2.items := by
  unfold finishJob
  split <;> rfl

theorem removeAndMaybeSpawn_items (s : OrchState) (p : Nat) (sp : Bool) :
    (removeAndMaybeSpawn s p sp).items = s.items := by
  unfold removeAndMaybeSpawn
  split <;> rfl

theorem activeCount_eq_of_items {s1 s2 : OrchState} (h : s1.items = s2.items)
    (q : String) : activeCount s1 q = activeCount s2 q := by
  unfold activeCount
  rw [h]

/-- A terminal WorkItem record is never changed by any `transition` call
(to it or to any other job), given distinct job ids. -/
theorem findItem_transition_stable (s : OrchState) (jt : Nat) (ns : JState)
    (f : TFields) {j : Nat} {i : WorkItem}
    (h4 : (s.items.map WorkItem.job_id).Nodup)
    (hf : findItem s j = some i) (hterm : i.state.isTerminal = true) :
    findItem (transition s jt ns f).2 j = some i := by
  rcases transition_snd_cases s jt ns f with ⟨_, heq⟩ | ⟨_, heq, i0, hf0, ht0, hl0⟩
  · rw [heq]
    exact hf
  · rw [heq]
    show (s.items.map (updFun jt ns f)).find? (fun x => x.job_id == j) = some i
    rw [find?_map_pres _ _ (fun x => by rw [updFun_job_id]) s.items]
    unfold findItem at hf
    rw [hf]
    show some (updFun jt ns f i) = some i
    have him : i ∈ s.items := List.mem_of_find?_eq_some hf
    have hi0m : i0 ∈ s.items := List.mem_of_find?_eq_some hf0
    have hi0j : i0.job_id = jt := by simpa using List.find?_some hf0
    have hne : i.job_id ≠ jt := by
      intro hc
      have hii : i = i0 := key_inj h4 him hi0m (by rw [hc, hi0j])
      rw [hii, ht0] at hterm
      cases hterm
    rw [updFun_of_ne _ _ _ _ hne]

theorem findWorker_transition (s : OrchState) (jt : Nat) (ns : JState)
    (f : TFields) (p : Nat) :
    findWorker (transition s jt ns f).2 p = findWorker s p := by
  unfold findWorker
  rw [transition_workers]

theorem findWorker_removeSpawn {s : OrchState} {p' : Nat} {sp : Bool}
    {p : Nat} {w : Worker} (hf : findWorker s p = some w) (hne : w.pid ≠ p') :
    findWorker (removeAndMaybeSpawn s p' sp) p = some w := by
  unfold removeAndMaybeSpawn
  have hfil : (removeWorker s.workers p').find? (fun x => x.pid == p) = some w := by
    unfold removeWorker
    exact find?_filter_of_find? hf (by simpa using hne)
  split
  · show ((removeWorker s.workers p') ++ [_]).find? (fun x => x.pid == p) = some w
    exact find?_append_left _ hfil
  · exact hfil

/-- Reachability is preserved along any operation trace. -/
theorem reachable_applyTrace (t : List Op) {s : OrchState} (h : Reachable s) :
    Reachable (applyTrace t s) := by
  induction t generalizing s with
  | nil => exact h
  | cons op t2 ih => exact ih (Reachable.step op h)

/-- The unique `evaluating` record bound to a worker, looked up by job id. -/
theorem findItem_of_binding {s : OrchState} (h : WF s) {w : Worker} {j : Nat}
    (hwm : w ∈ s.workers) (hcj : w.current_job_id = some j) :
    ∃ i, findItem s j = some i ∧ i.state = .evaluating ∧ i ∈ s.items ∧
      i.job_id = j := by
  obtain ⟨h1, h2, h3, h4, h5, h6, h7⟩ := h
  obtain ⟨i, hi, hij, hev⟩ := h6 w hwm j hcj
  refine ⟨i, ?_, hev, hi, hij⟩
  have := find?_eq_of_mem_nodup h4 hi
  rw [hij] at this
  exact this

theorem removeWorker_eq_self {ws : List Worker} {p : Nat}
    (h : ∀ u ∈ ws, u.pid ≠ p) : removeWorker ws p = ws := by
  unfold removeWorker
  rw [List.filter_eq_self]
  intro u hu
  simpa using h u hu

theorem removeWorker_length {ws : List Worker}
    (h : (ws.map Worker.pid).Nodup) {p : Nat} {w : Worker} (hw : w ∈ ws)
    (hwp : w.pid = p) : (removeWorker ws p).length + 1 = ws.length := by
  induction ws with
  | nil => cases hw
  | cons x xs ih =>
    have h' : (∀ y ∈ xs, ¬ y.pid = x.pid) ∧ (xs.map Worker.pid).Nodup := by
      simpa using h
    rcases List.mem_cons.mp hw with heq | hw2
    · have hxp : x.pid = p := by rw [← heq]; exact hwp
      unfold removeWorker
      rw [List.filter_cons]
      rw [if_neg (by simp [hxp])]
      have hall : List.filter (fun u => u.pid != p) xs = xs := by
        rw [List.filter_eq_self]
        intro u hu
        have h2 : u.pid ≠ p := by
          rw [← hxp]
          exact h'.1 u hu
        simpa using h2
      rw [hall]
      simp
    · have hxw : x.pid ≠ p := by
        intro hc
        exact (h'.1 w hw2) (by rw [hwp, hc])
      unfold removeWorker
      rw [List.filter_cons, if_pos (by simp [hxw])]
      have hih := ih h'.2 hw2
      unfold removeWorker at hih
      simp only [List.length_cons]
      omega

theorem kill_immediate_state {s : OrchState} {p j : Nat} {w : Worker}
    (hw : findWorker s p = some w) (hcj : w.current_job_id = some j)
    (sp : Bool) :
    kill s p .immediate sp =
      removeAndMaybeSpawn
        (transition s j .cancelled
          { worker := none, prog := none, err := none, time := s.clock }).2
        p sp := by
  unfold findWorker at hw
  simp only [kill, hw, hcj]

theorem kill_graceful_state {s : OrchState} {p j : Nat} {w : Worker}
    (hw : findWorker s p = some w) (hcj : w.current_job_id = some j)
    (sp : Bool) :
    kill s p .graceful sp = { s with workers := markStopping s.workers p sp } := by
  unfold findWorker at hw
  simp only [kill, hw, hcj]

theorem crash_state {s : OrchState} {p j : Nat} {w : Worker}
    (hw : findWorker s p = some w) (hcj : w.current_job_id = some j) :
    crash s p =
      removeAndMaybeSpawn
        (transition s j .failed
          { worker := none, prog := none,
            err := some "worker terminated unexpectedly", time := s.clock }).2
        p true := by
  unfold findWorker at hw
  simp only [crash, hw, hcj]

/-- After a terminal `transition` on the bound job followed by removal
of the bound worker and a replacement spawn, the common conclusions of
claims C2 and C6: the bound job's record took the edge, the fleet size is
unchanged, and the killed pid is gone. -/
theorem removeSpawn_facts {s : OrchState} {p j : Nat} {w : Worker}
    (hwf : WF s) (hw : findWorker s p = some w)
    (hcj : w.current_job_id = some j) (ns : JState) (f : TFields)
    (hns : ns = .cancelled ∨ ns = .failed) :
    (∃ i, findItem s j = some i ∧ i.state = .evaluating ∧
      findItem (removeAndMaybeSpawn (transition s j ns f).2 p true) j =
        some (applyEdge i ns f)) ∧
    (removeAndMaybeSpawn (transition s j ns f).2 p true).workers.length =
      s.workers.length ∧
    (∀ w' ∈ (removeAndMaybeSpawn (transition s j ns f).2 p true).workers,
      w'.pid ≠ p) := by
  have hwm : w ∈ s.workers := List.mem_of_find?_eq_some hw
  have hwp : w.pid = p := by simpa using List.find?_some hw
  obtain ⟨i, hfi, hev, him, hij⟩ := findItem_of_binding hwf hwm hcj
  have ht : i.state.isTerminal = false := by rw [hev]; rfl
  have hl : legalEdge i.state ns = true := by
    rw [hev]
    rcases hns with rfl | rfl <;> rfl
  have hf' : s.items.find? (fun x => x.job_id == j) = some i := hfi
  have htr := transition_ok_eq f hf' ht hl
  have ht2 : (transition s j ns f).2 =
      { s with items := s.items.map (updFun j ns f) } := by rw [htr]
  obtain ⟨h1, h2, h3, h4, h5, h6, h7⟩ := hwf
  refine ⟨⟨i, hfi, hev, ?_⟩, ?_, ?_⟩
  · show (removeAndMaybeSpawn (transition s j ns f).2 p true).items.find?
      (fun x => x.job_id == j) = some (applyEdge i ns f)
    rw [removeAndMaybeSpawn_items, ht2]
    show (s.items.map (updFun j ns f)).find? (fun x => x.job_id == j) =
      some (applyEdge i ns f)
    rw [find?_map_pres _ _ (fun x => by rw [updFun_job_id]) s.items, hf']
    show some (updFun j ns f i) = some (applyEdge i ns f)
    have hbe : (i.job_id == j) = true := by simp [hij]
    simp [updFun, hbe]
  · rw [ht2]
    unfold removeAndMaybeSpawn
    rw [if_pos rfl]
    unfold addFresh
    simp only [List.length_append, List.length_singleton]
    exact removeWorker_length h2 hwm hwp
  · intro w' hw'
    rw [ht2] at hw'
    unfold removeAndMaybeSpawn addFresh at hw'
    rw [if_pos rfl] at hw'
    rcases List.mem_append.mp hw' with hw'3 | hw'3
    · have := List.of_mem_filter hw'3
      simpa using this
    · have heq3 := List.mem_singleton.mp hw'3
      rw [heq3]
      show s.nextPid ≠ p
      have := h3 w hwm
      omega

/-- Claim C2: after `kill(worker_id, immediate, spawn_replacement=true)`
on a worker bound to job J, J's WorkItem ends in state `cancelled` and
never `failed`, the fleet size equals its pre-kill count once the
replacement is in place, and `worker_status()` no longer lists the killed
worker's process identity. -/
theorem kill_immediate_cancels_and_replaces (s : OrchState) (p j : Nat)
    (w : Worker) (hs : Reachable s) (hw : findWorker s p = some w)
    (hcj : w.current_job_id = some j) :
    (∃ i2, findItem (kill s p .immediate true) j = some i2 ∧
      i2.state = .cancelled ∧ i2.state ≠ .failed) ∧
    (kill s p .immediate true).workers.length = s.workers.length ∧
    (∀ w' ∈ (worker_status (kill s p .immediate true)).1, w'.pid ≠ p) := by
  have hwf := reachable_wf hs
  rw [kill_immediate_state hw hcj true]
  obtain ⟨⟨i, hfi, hev, hfind⟩, hlen, hpids⟩ :=
    removeSpawn_facts hwf hw hcj .cancelled
      { worker := none, prog := none, err := none, time := s.clock }
      (Or.inl rfl)
  refine ⟨⟨applyEdge i .cancelled _, hfind, ?_, ?_⟩, hlen, hpids⟩
  · simp [applyEdge]
  · simp [applyEdge]

/-- Claim C6: when a worker's execution context disappears without a
clean stop while bound to job J, the liveness check transitions J's
WorkItem to `failed` with the non-empty error message
"worker terminated unexpectedly", a replacement worker restores the
fleet size, and the job reaches a terminal state (it is never lost). -/
theorem crash_fails_job_and_restores_fleet (s : OrchState) (p j : Nat)
    (w : Worker) (hs : Reachable s) (hw : findWorker s p = some w)
    (hcj : w.current_job_id = some j) :
    (∃ i2, findItem (crash s p) j = some i2 ∧ i2.state = .failed ∧
      i2.error_message = some "worker terminated unexpectedly" ∧
      i2.error_message ≠ some "" ∧ i2.state.isTerminal = true) ∧
    (crash s p).workers.length = s.workers.length := by
  have hwf := reachable_wf hs
  rw [crash_state hw hcj]
  obtain ⟨⟨i, hfi, hev, hfind⟩, hlen, _⟩ :=
    removeSpawn_facts hwf hw hcj .failed
      { worker := none, prog := none,
        err := some "worker terminated unexpectedly", time := s.clock }
      (Or.inr rfl)
  refine ⟨⟨applyEdge i .failed _, hfind, ?_, ?_, ?_, ?_⟩, hlen⟩
  · simp [applyEdge]
  · simp [applyEdge]
  · simp [applyEdge]
  · simp [applyEdge, JState.isTerminal]

/-! ## Claim C1: the dedup invariant -/

theorem activeCount_submit_le (s : OrchState) (q0 pl : String)
    (h : ∀ q', activeCount s q' ≤ 1) (q : String) :
    activeCount (submit s q0 pl).2 q ≤ 1 := by
  unfold submit
  split
  · exact h q
  · next hd =>
    have hd' : hasActive s q0 = false := by
      cases hx : hasActive s q0 with
      | true => exact absurd hx hd
      | false => rfl
    show ((s.items ++ [newItem s q0 pl]).filter
      (fun i => i.quiz_id == q && i.isActive)).length ≤ 1
    rw [List.filter_append, List.length_append]
    by_cases hqq : q0 = q
    · subst hqq
      have hz := activeCount_eq_zero_of_not_hasActive hd'
      unfold activeCount at hz
      rw [hz]
      have hone : ((newItem s q0 pl).quiz_id == q0 &&
          (newItem s q0 pl).isActive) = true := by
        simp [newItem, WorkItem.isActive, JState.isTerminal]
      simp [List.filter, hone]
    · have hzero : ((newItem s q0 pl).quiz_id == q &&
          (newItem s q0 pl).isActive) = false := by
        have hne : ((newItem s q0 pl).quiz_id == q) = false := by
          simp [newItem]
          exact hqq
        simp [hne]
      simp only [List.filter, hzero]
      have h2 := h q
      unfold activeCount at h2
      simpa using h2

theorem activeCount_applyOp_le (s : OrchState) (op : Op)
    (h : ∀ q', activeCount s q' ≤ 1) (q : String) :
    activeCount (applyOp s op) q ≤ 1 := by
  cases op with
  | submit q0 pl => exact activeCount_submit_le s q0 pl h q
  | dispatch p =>
    show activeCount (dispatch s p) q ≤ 1
    unfold dispatch
    split
    · exact h q
    · split
      · split
        · exact h q
        · next i hpick =>
          show activeCount (assignJob s p i.job_id) q ≤ 1
          unfold assignJob
          split
          · calc activeCount _ q
                = activeCount (transition s i.job_id .evaluating
                    { worker := some p, prog := none, err := none,
                      time := s.clock }).2 q := activeCount_eq_of_items rfl q
              _ ≤ activeCount s q := transition_activeCount_le s _ _ _ q
              _ ≤ 1 := h q
          · exact le_trans (transition_activeCount_le s _ _ _ q) (h q)
      · exact h q
  | progress j pr => exact le_trans (transition_activeCount_le s j _ _ q) (h q)
  | succeed j =>
    show activeCount (finishJob s j .completed _ true) q ≤ 1
    calc activeCount (finishJob s j .completed _ true) q
        = activeCount (transition s j .completed _).2 q :=
          activeCount_eq_of_items (finishJob_items s j .completed _ true) q
      _ ≤ activeCount s q := transition_activeCount_le s _ _ _ q
      _ ≤ 1 := h q
  | fail j msg =>
    show activeCount (finishJob s j .failed _ false) q ≤ 1
    calc activeCount (finishJob s j .failed _ false) q
        = activeCount (transition s j .failed _).2 q :=
          activeCount_eq_of_items (finishJob_items s j .failed _ false) q
      _ ≤ activeCount s q := transition_activeCount_le s _ _ _ q
      _ ≤ 1 := h q
  | stopJob q0 =>
    show activeCount (stopJob s q0) q ≤ 1
    unfold stopJob
    split
    · exact h q
    · next i hf =>
      calc activeCount (finishJob s i.job_id .cancelled _ false) q
          = activeCount (transition s i.job_id .cancelled _).2 q :=
            activeCount_eq_of_items (finishJob_items s _ .cancelled _ false) q
        _ ≤ activeCount s q := transition_activeCount_le s _ _ _ q
        _ ≤ 1 := h q
  | kill p m sp =>
    show activeCount (kill s p m sp) q ≤ 1
    unfold kill
    split
    · exact h q
    · next w hw =>
      split
      · calc activeCount (removeAndMaybeSpawn s p sp) q
            = activeCount s q := activeCount_eq_of_items
              (removeAndMaybeSpawn_items s p sp) q
          _ ≤ 1 := h q
      · next j hcj =>
        split
        · exact h q
        · calc activeCount (removeAndMaybeSpawn _ p sp) q
              = activeCount (transition s j .cancelled _).2 q :=
                activeCount_eq_of_items (removeAndMaybeSpawn_items _ p sp) q
            _ ≤ activeCount s q := transition_activeCount_le s _ _ _ q
            _ ≤ 1 := h q
  | reclaim p =>
    show activeCount (reclaim s p) q ≤ 1
    unfold reclaim
    split
    · exact h q
    · next w hw =>
      split
      · calc activeCount (removeAndMaybeSpawn s p w.spawn_on_stop) q
            = activeCount s q := activeCount_eq_of_items
              (removeAndMaybeSpawn_items s p w.spawn_on_stop) q
          _ ≤ 1 := h q
      · exact h q
  | crash p =>
    show activeCount (crash s p) q ≤ 1
    unfold crash
    split
    · exact h q
    · next w hw =>
      split
      · calc activeCount (removeAndMaybeSpawn s p true) q
            = activeCount s q := activeCount_eq_of_items
              (removeAndMaybeSpawn_items s p true) q
          _ ≤ 1 := h q
      · next j hcj =>
        calc activeCount (removeAndMaybeSpawn _ p true) q
            = activeCount (transition s j .failed _).2 q :=
              activeCount_eq_of_items (removeAndMaybeSpawn_items _ p true) q
          _ ≤ activeCount s q := transition_activeCount_le s _ _ _ q
          _ ≤ 1 := h q

/-- Claim C1: dedup invariant — in every reachable orchestrator state, at
most one WorkItem per quiz id is in a non-terminal (`queued` or
`evaluating`) state, and every single operation (submit, dispatcher
assign, progress update, succeed, fail, cancel, kill, reclaim, crash
recovery) preserves this invariant from any state satisfying it. -/
theorem dedup_invariant_all_ops :
    (∀ s : OrchState, Reachable s → ∀ q, activeCount s q ≤ 1) ∧
    (∀ (s : OrchState) (op : Op), (∀ q, activeCount s q ≤ 1) →
      ∀ q, activeCount (applyOp s op) q ≤ 1) :=
  ⟨fun _ hs q => (reachable_wf hs).1 q,
   fun s op h q => activeCount_applyOp_le s op h q⟩

/-! ## Claim C3: the transition state machine -/

/-- Claim C3: `transition(job_id, new_state, fields)` succeeds exactly on
the legal edges `queued→evaluating`, `evaluating→evaluating`,
`evaluating→completed`, `evaluating→failed` and
`queued|evaluating→cancelled`; `evaluating→queued` always fails with
`IllegalTransition`; and once a WorkItem is terminal every transition
attempt is a no-op reported `AlreadyTerminal`, leaving the state (and so
the WorkItem) unchanged. -/
theorem transition_legal_edges_only (s : OrchState) (j : Nat) (ns : JState)
    (f : TFields) (i : WorkItem)
    (hf : s.items.find? (fun x => x.job_id == j) = some i) :
    ((transition s j ns f).1 = .ok ↔
      ((i.state = .queued ∧ ns = .evaluating) ∨
       (i.state = .evaluating ∧ ns = .evaluating) ∨
       (i.state = .evaluating ∧ ns = .completed) ∨
       (i.state = .evaluating ∧ ns = .failed) ∨
       ((i.state = .queued ∨ i.state = .evaluating) ∧ ns = .cancelled))) ∧
    (i.state = .evaluating →
      (transition s j .queued f).1 = .illegalTransition) ∧
    (i.state.isTerminal = true → transition s j ns f = (.alreadyTerminal, s)) := by
  refine ⟨?_, ?_, ?_⟩
  · unfold transition
    rw [hf]
    cases hst : i.state <;> cases ns <;>
      simp [hst, JState.isTerminal, legalEdge]
  · intro hev
    unfold transition
    rw [hf]
    simp [hev, JState.isTerminal, legalEdge]
  · intro ht
    unfold transition
    rw [hf]
    simp [ht]

/-! ## Claim C4: submit and DuplicateActiveJob -/

/-- Claim C4: while a non-terminal WorkItem for quiz Q exists, `submit`
fails with `DuplicateActiveJob`, changes nothing, and exactly one active
WorkItem for Q remains; otherwise it appends a fresh `queued` WorkItem
(whose job id was never used before) and returns that id, leaving exactly
one active WorkItem for Q. -/
theorem submit_duplicate_active_job (s : OrchState) (q pl : String)
    (hs : Reachable s) :
    (hasActive s q = true →
      (submit s q pl).1 = .duplicateActiveJob ∧ (submit s q pl).2 = s ∧
      activeCount (submit s q pl).2 q = 1) ∧
    (hasActive s q = false →
      (submit s q pl).1 = .ok s.nextJobId ∧
      (∀ i ∈ s.items, i.job_id ≠ s.nextJobId) ∧
      findItem (submit s q pl).2 s.nextJobId = some (newItem s q pl) ∧
      (newItem s q pl).state = .queued ∧ (newItem s q pl).quiz_id = q ∧
      activeCount (submit s q pl).2 q = 1) := by
  obtain ⟨h1, h2, h3, h4, h5, h6, h7⟩ := reachable_wf hs
  constructor
  · intro hd
    unfold submit
    rw [if_pos hd]
    refine ⟨rfl, rfl, ?_⟩
    show activeCount s q = 1
    have hle := h1 q
    have hge := activeCount_pos_of_hasActive hd
    omega
  · intro hd
    unfold submit
    rw [if_neg (by rw [hd]; intro hc; cases hc)]
    refine ⟨rfl, ?_, ?_, rfl, rfl, ?_⟩
    · intro i hi
      have := h5 i hi
      omega
    · show (s.items ++ [newItem s q pl]).find?
        (fun x => x.job_id == s.nextJobId) = some (newItem s q pl)
      have hnone : s.items.find? (fun x => x.job_id == s.nextJobId) = none := by
        rw [List.find?_eq_none]
        intro x hx
        have := h5 x hx
        simp
        omega
      rw [List.find?_append, hnone]
      simp [newItem]
    · show ((s.items ++ [newItem s q pl]).filter
        (fun i => i.quiz_id == q && i.isActive)).length = 1
      rw [List.filter_append, List.length_append]
      have hz := activeCount_eq_zero_of_not_hasActive hd
      unfold activeCount at hz
      rw [hz]
      have hone : ((newItem s q pl).quiz_id == q &&
          (newItem s q pl).isActive) = true := by
        simp [newItem, WorkItem.isActive, JState.isTerminal]
      simp [List.filter, hone]

/-! ## Claim C7: cancellation wins over progress -/

theorem progressUpdate_terminal {s : OrchState} {j : Nat} {i : WorkItem}
    (hf : findItem s j = some i) (ht : i.state.isTerminal = true)
    (pr : Progress) : progressUpdate s j pr = s := by
  unfold progressUpdate transition
  unfold findItem at hf
  rw [hf]
  simp [ht]

/-- Claim C7: once a WorkItem is `cancelled`, every subsequent progress
update for that job is discarded — after any list of progress updates the
orchestrator state is unchanged, so the WorkItem record (its state and
its progress fields) is exactly what it was when cancelled. -/
theorem cancellation_wins_over_progress (s : OrchState) (j : Nat)
    (i : WorkItem) (hf : findItem s j = some i) (hc : i.state = .cancelled) :
    ∀ ps : List Progress,
      applyTrace (ps.map (fun pr => Op.progress j pr)) s = s ∧
      findItem (applyTrace (ps.map (fun pr => Op.progress j pr)) s) j =
        some i := by
  have ht : i.state.isTerminal = true := by rw [hc]; rfl
  intro ps
  have hstate : applyTrace (ps.map (fun pr => Op.progress j pr)) s = s := by
    induction ps with
    | nil => rfl
    | cons p2 ps2 ih =>
      show applyTrace (ps2.map (fun pr => Op.progress j pr))
        (applyOp s (Op.progress j p2)) = s
      have h1 : applyOp s (Op.progress j p2) = s :=
        progressUpdate_terminal hf ht p2
      rw [h1]
      exact ih
  refine ⟨hstate, ?_⟩
  rw [hstate]
  exact hf

/-! ## Claim C9: the Status Reporter is read-only -/

/-- Claim C9: every Status Reporter operation (`queue_summary`,
`job_status`, `worker_status`) and every store read (`get`,
`get_by_quiz`, `list`) returns the orchestrator state unchanged: the
post-state equals the pre-state for every argument. -/
theorem status_reporter_readonly :
    ∀ (s : OrchState) (q : String) (j : Nat) (st : JState),
      (queue_summary s).2 = s ∧ (job_status s q).2 = s ∧
      (worker_status s).2 = s ∧ (get s j).2 = s ∧
      (get_by_quiz s q).2 = s ∧ (listByState s st).2 = s :=
  fun _ _ _ _ => ⟨rfl, rfl, rfl, rfl, rfl, rfl⟩

/-! ## Claim C5: dispatcher FIFO pick and per-quiz exclusivity -/

theorem dispatch_eq {s : OrchState} {p : Nat} {w : Worker} {i : WorkItem}
    (hw : findWorker s p = some w) (hidle : w.isIdle = true)
    (hpick : pickOldest (s.items.filter (eligible s)) = some i) :
    dispatch s p = assignJob s p i.job_id := by
  unfold findWorker at hw
  simp only [dispatch, hw]
  rw [if_pos hidle]
  simp only [hpick]

theorem assignJob_eq {s : OrchState} {p j : Nat} {i : WorkItem}
    (h4 : (s.items.map WorkItem.job_id).Nodup) (hi : i ∈ s.items)
    (hij : i.job_id = j) (hiq : i.state = .queued) :
    assignJob s p j =
      { s with
        items := s.items.map (updFun j .evaluating
          { worker := some p, prog := none, err := none, time := s.clock }),
        workers := bindWorker s.workers p j } := by
  have hf : s.items.find? (fun x => x.job_id == j) = some i := by
    have := find?_eq_of_mem_nodup h4 hi
    rw [hij] at this
    exact this
  have ht : i.state.isTerminal = false := by rw [hiq]; rfl
  have hl : legalEdge i.state .evaluating = true := by rw [hiq]; rfl
  have htr := transition_ok_eq
    { worker := some p, prog := none, err := none, time := s.clock } hf ht hl
  unfold assignJob
  rw [htr]

theorem findWorker_bindWorker {ws : List Worker} {p : Nat} {w : Worker}
    (hf : ws.find? (fun x => x.pid == p) = some w) (p2 j2 : Nat) :
    (bindWorker ws p2 j2).find? (fun x => x.pid == p) =
      some (if w.pid == p2 then { w with current_job_id := some j2 } else w) := by
  unfold bindWorker
  rw [find?_map_pres _ _ (fun x => by split <;> rfl) ws, hf]
  rfl

/-- Claim C5: whenever an idle worker exists and the eligible `queued`
WorkItems are non-empty, the Dispatcher binds the oldest eligible item
(FIFO by `enqueued_at`, the sole ordering signal) to that worker in one
atomic step, transitioning it to `evaluating`; and in every reachable
state no two distinct workers are bound to WorkItems with the same quiz
id (the dedup check and the bind being one atomic function application). -/
theorem dispatcher_fifo_and_exclusive (s : OrchState) (hs : Reachable s) :
    (∀ p w, findWorker s p = some w → w.isIdle = true →
      ∀ i, pickOldest (s.items.filter (eligible s)) = some i →
        (i.state = .queued ∧ eligible s i = true ∧
          (∀ x ∈ s.items, eligible s x = true →
            i.enqueued_at ≤ x.enqueued_at)) ∧
        (∃ i2, findItem (dispatch s p) i.job_id = some i2 ∧
          i2.state = .evaluating ∧ i2.assigned_worker_id = some p) ∧
        (∃ w2, findWorker (dispatch s p) p = some w2 ∧
          w2.current_job_id = some i.job_id)) ∧
    (∀ w1 ∈ s.workers, ∀ w2 ∈ s.workers, w1.pid ≠ w2.pid →
      ∀ j1 j2, w1.current_job_id = some j1 → w2.current_job_id = some j2 →
        ∀ i1 i2, findItem s j1 = some i1 → findItem s j2 = some i2 →
          i1.quiz_id ≠ i2.quiz_id) := by
  obtain ⟨h1, h2, h3, h4, h5, h6, h7⟩ := reachable_wf hs
  constructor
  · intro p w hw hidle i hpick
    have himem := pickOldest_mem hpick
    have hif := List.mem_filter.mp himem
    have hiq : i.state = .queued := by
      have he := hif.2
      unfold eligible at he
      have h2e := (Bool.and_eq_true _ _).mp he
      simpa using h2e.1
    have hmin : ∀ x ∈ s.items, eligible s x = true →
        i.enqueued_at ≤ x.enqueued_at := fun x hx hex =>
      pickOldest_min hpick x (List.mem_filter.mpr ⟨hx, hex⟩)
    have hde := dispatch_eq hw hidle hpick
    have hae := assignJob_eq (p := p) (i := i) h4 hif.1 rfl hiq
    refine ⟨⟨hiq, hif.2, hmin⟩, ?_, ?_⟩
    · rw [hde, hae]
      have hfind : s.items.find? (fun x => x.job_id == i.job_id) = some i :=
        find?_eq_of_mem_nodup h4 hif.1
      refine ⟨applyEdge i .evaluating
        { worker := some p, prog := none, err := none, time := s.clock },
        ?_, ?_, ?_⟩
      · show (s.items.map (updFun i.job_id .evaluating _)).find?
          (fun x => x.job_id == i.job_id) = some _
        rw [find?_map_pres _ _ (fun x => by rw [updFun_job_id]) s.items, hfind]
        show some (updFun i.job_id .evaluating _ i) = some _
        simp [updFun]
      · simp [applyEdge, hiq]
      · simp [applyEdge, hiq]
    · rw [hde, hae]
      have hw' : s.workers.find? (fun x => x.pid == p) = some w := hw
      have hwp : (w.pid == p) = true := by
        have := List.find?_some hw'
        simpa using this
      refine ⟨if w.pid == p then { w with current_job_id := some i.job_id }
          else w, ?_, ?_⟩
      · show (bindWorker s.workers p i.job_id).find?
          (fun x => x.pid == p) = some _
        rw [findWorker_bindWorker hw' p i.job_id]
      · rw [if_pos hwp]
  · intro w1 hw1 w2 hw2 hpid j1 j2 hj1 hj2 i1 i2 hfi1 hfi2 hqq
    have hj12 : j1 ≠ j2 := by
      intro hc
      have hww : w1 = w2 := h7 w1 hw1 w2 hw2 j1 hj1 (by rw [hc]; exact hj2)
      exact hpid (by rw [hww])
    obtain ⟨i1', hi1', hij1', hev1'⟩ := h6 w1 hw1 j1 hj1
    obtain ⟨i2', hi2', hij2', hev2'⟩ := h6 w2 hw2 j2 hj2
    have hfe1 : findItem s j1 = some i1' := by
      have := find?_eq_of_mem_nodup h4 hi1'
      rw [hij1'] at this
      exact this
    have hfe2 : findItem s j2 = some i2' := by
      have := find?_eq_of_mem_nodup h4 hi2'
      rw [hij2'] at this
      exact this
    rw [hfi1] at hfe1
    rw [hfi2] at hfe2
    injection hfe1 with hfe1
    injection hfe2 with hfe2
    subst hfe1
    subst hfe2
    have hact1 : (i1.quiz_id == i1.quiz_id && i1.isActive) = true := by
      simp [WorkItem.isActive, hev1', JState.isTerminal]
    have hact2 : (i2.quiz_id == i1.quiz_id && i2.isActive) = true := by
      rw [hqq]
      simp [WorkItem.isActive, hev2', JState.isTerminal]
    have hm1 : i1 ∈ s.items.filter
        (fun x => x.quiz_id == i1.quiz_id && x.isActive) :=
      List.mem_filter.mpr ⟨hi1', hact1⟩
    have hm2 : i2 ∈ s.items.filter
        (fun x => x.quiz_id == i1.quiz_id && x.isActive) :=
      List.mem_filter.mpr ⟨hi2', hact2⟩
    have hne : i1 ≠ i2 := by
      intro hc
      exact hj12 (by rw [← hij1', hc, hij2'])
    have h2le := two_le_length_of_mem hm1 hm2 hne
    have hcount := h1 i1.quiz_id
    unfold activeCount at hcount
    omega

/-! ## Claim C8: graceful kill lets the job finish before reclaim -/

/-- Operations that contain no administrative cancellation: anything but
`stopJob` and an `immediate` kill. -/
def noCancelOp : Op → Prop
  | .stopJob _ => False
  | .kill _ .immediate _ => False
  | _ => True

/-- Trace invariant for claim C8: either the worker with pid `p` is still
in the fleet and bound to job `j`, or job `j` has already reached a
normal-execution terminal state (`completed` or `failed`). -/
def C8Inv (p j : Nat) (st : OrchState) : Prop :=
  (∃ w, findWorker st p = some w ∧ w.current_job_id = some j) ∨
  (∃ i, findItem st j = some i ∧ (i.state = .completed ∨ i.state = .failed))

theorem findWorker_unbindJob {ws : List Worker} {p : Nat} {w : Worker}
    (hf : ws.find? (fun x => x.pid == p) = some w) (j2 : Nat) (b : Bool) :
    (unbindJob ws j2 b).find? (fun x => x.pid == p) =
      some (if w.current_job_id == some j2 then
        { w with current_job_id := none,
                 jobs_completed := w.jobs_completed + (if b then 1 else 0) }
      else w) := by
  unfold unbindJob
  rw [find?_map_pres _ _ (fun x => by split <;> rfl) ws, hf]
  rfl

theorem findWorker_markStopping {ws : List Worker} {p : Nat} {w : Worker}
    (hf : ws.find? (fun x => x.pid == p) = some w) (p2 : Nat) (sp : Bool) :
    (markStopping ws p2 sp).find? (fun x => x.pid == p) =
      some (if w.pid == p2 then
        { w with status := .stopping, spawn_on_stop := sp } else w) := by
  unfold markStopping
  rw [find?_map_pres _ _ (fun x => by split <;> rfl) ws, hf]
  rfl

theorem findItem_transition_self {s : OrchState} {j : Nat} {i : WorkItem}
    (ns : JState) (f : TFields)
    (hf : s.items.find? (fun x => x.job_id == j) = some i)
    (ht : i.state.isTerminal = false) (hl : legalEdge i.state ns = true) :
    (transition s j ns f).2.items.find? (fun x => x.job_id == j) =
      some (applyEdge i ns f) := by
  rw [transition_ok_eq f hf ht hl]
  show (s.items.map (updFun j ns f)).find? (fun x => x.job_id == j) =
    some (applyEdge i ns f)
  rw [find?_map_pres _ _ (fun x => by rw [updFun_job_id]) s.items, hf]
  have hij : i.job_id = j := by simpa using List.find?_some hf
  show some (updFun j ns f i) = some (applyEdge i ns f)
  simp [updFun, hij]

/-- A terminal WorkItem record is unchanged by every operation. -/
theorem findItem_applyOp_terminal (st : OrchState) (op : Op)
    (h4 : (st.items.map WorkItem.job_id).Nodup) {j : Nat} {i : WorkItem}
    (hf : findItem st j = some i) (ht : i.state.isTerminal = true) :
    findItem (applyOp st op) j = some i := by
  cases op with
  | submit q pl =>
    show findItem (submit st q pl).2 j = some i
    unfold submit
    split
    · exact hf
    · show (st.items ++ [newItem st q pl]).find?
        (fun x => x.job_id == j) = some i
      exact find?_append_left _ hf
  | dispatch p2 =>
    show findItem (dispatch st p2) j = some i
    unfold dispatch
    split
    · exact hf
    · split
      · split
        · exact hf
        · next i2 hpick =>
          show findItem (assignJob st p2 i2.job_id) j = some i
          unfold assignJob
          split
          · exact findItem_transition_stable st i2.job_id .evaluating _ h4 hf ht
          · exact findItem_transition_stable st i2.job_id .evaluating _ h4 hf ht
      · exact hf
  | progress j2 pr =>
    exact findItem_transition_stable st j2 .evaluating _ h4 hf ht
  | succeed j2 =>
    show findItem (finishJob st j2 .completed _ true) j = some i
    unfold findItem
    rw [finishJob_items]
    exact findItem_transition_stable st j2 .completed _ h4 hf ht
  | fail j2 msg =>
    show findItem (finishJob st j2 .failed _ false) j = some i
    unfold findItem
    rw [finishJob_items]
    exact findItem_transition_stable st j2 .failed _ h4 hf ht
  | stopJob q =>
    show findItem (stopJob st q) j = some i
    unfold stopJob
    split
    · exact hf
    · next i2 hfq =>
      unfold findItem
      rw [finishJob_items]
      exact findItem_transition_stable st i2.job_id .cancelled _ h4 hf ht
  | kill p2 m sp =>
    show findItem (kill st p2 m sp) j = some i
    unfold kill
    split
    · exact hf
    · split
      · unfold findItem
        rw [removeAndMaybeSpawn_items]
        exact hf
      · split
        · exact hf
        · unfold findItem
          rw [removeAndMaybeSpawn_items]
          exact findItem_transition_stable st _ .cancelled _ h4 hf ht
  | reclaim p2 =>
    show findItem (reclaim st p2) j = some i
    unfold reclaim
    split
    · exact hf
    · split
      · unfold findItem
        rw [removeAndMaybeSpawn_items]
        exact hf
      · exact hf
  | crash p2 =>
    show findItem (crash st p2) j = some i
    unfold crash
    split
    · exact hf
    · split
      · unfold findItem
        rw [removeAndMaybeSpawn_items]
        exact hf
      · unfold findItem
        rw [removeAndMaybeSpawn_items]
        exact findItem_transition_stable st _ .failed _ h4 hf ht

/-- One non-cancelling operation preserves the C8 trace invariant in a
well-formed state. -/
theorem c8_step (p j : Nat) (st : OrchState) (op : Op) (hwf : WF st)
    (hop : noCancelOp op) (hinv : C8Inv p j st) :
    C8Inv p j (applyOp st op) := by
  rcases hinv with ⟨w, hw, hcj⟩ | ⟨i, hfi, hterm⟩
  · have hw' : st.workers.find? (fun x => x.pid == p) = some w := hw
    have hwm : w ∈ st.workers := List.mem_of_find?_eq_some hw'
    have hwp : w.pid = p := by
      have := List.find?_some hw'
      simpa using this
    obtain ⟨h1, h2, h3, h4, h5, h6, h7⟩ := hwf
    obtain ⟨ij, hfij, hevj, himj, hijid⟩ :=
      findItem_of_binding ⟨h1, h2, h3, h4, h5, h6, h7⟩ hwm hcj
    cases op with
    | submit q pl =>
      left
      refine ⟨w, ?_, hcj⟩
      show findWorker (submit st q pl).2 p = some w
      unfold submit
      split
      · exact hw
      · exact hw'
    | dispatch p2 =>
      show C8Inv p j (dispatch st p2)
      unfold dispatch
      split
      · exact Or.inl ⟨w, hw, hcj⟩
      · next w0 hw0 =>
        split
        · next hidle0 =>
          split
          · exact Or.inl ⟨w, hw, hcj⟩
          · next i2 hpick =>
            unfold assignJob
            split
            · left
              by_cases hpp : (w.pid == p2) = true
              · exfalso
                have hwp2 : w.pid = p2 := by simpa using hpp
                have hp2 : p2 = p := by omega
                subst hp2
                rw [hw'] at hw0
                injection hw0 with hw0
                subst hw0
                unfold Worker.isIdle at hidle0
                rw [hcj] at hidle0
                simp at hidle0
              · refine ⟨w, ?_, hcj⟩
                show (bindWorker (transition st i2.job_id .evaluating
                    _).2.workers p2 i2.job_id).find?
                    (fun x => x.pid == p) = some w
                rw [transition_workers]
                rw [findWorker_bindWorker hw' p2 i2.job_id]
                rw [if_neg hpp]
            · left
              refine ⟨w, ?_, hcj⟩
              show findWorker (transition st i2.job_id .evaluating _).2 p =
                some w
              rw [findWorker_transition]
              exact hw
        · exact Or.inl ⟨w, hw, hcj⟩
    | progress j2 pr =>
      left
      refine ⟨w, ?_, hcj⟩
      show findWorker (progressUpdate st j2 pr) p = some w
      unfold progressUpdate
      rw [findWorker_transition]
      exact hw
    | succeed j2 =>
      by_cases hjj : j2 = j
      · subst hjj
        right
        refine ⟨applyEdge ij .completed
          { worker := none, prog := none, err := none, time := st.clock },
          ?_, Or.inl (by simp [applyEdge])⟩
        show findItem (finishJob st j2 .completed _ true) j2 = some _
        unfold findItem
        rw [finishJob_items]
        exact findItem_transition_self .completed _ hfij
          (by rw [hevj]; rfl) (by rw [hevj]; rfl)
      · left
        refine ⟨w, ?_, hcj⟩
        show findWorker (finishJob st j2 .completed _ true) p = some w
        unfold finishJob
        split
        · show (unbindJob (transition st j2 .completed _).2.workers j2
            true).find? (fun x => x.pid == p) = some w
          rw [transition_workers]
          rw [findWorker_unbindJob hw' j2 true]
          rw [if_neg ?hnes]
          case hnes =>
            intro hcon
            rw [hcj] at hcon
            have : j = j2 := by simpa using hcon
            exact hjj this.symm
        · show findWorker (transition st j2 .completed _).2 p = some w
          rw [findWorker_transition]
          exact hw
    | fail j2 msg =>
      by_cases hjj : j2 = j
      · subst hjj
        right
        refine ⟨applyEdge ij .failed
          { worker := none, prog := none, err := some msg, time := st.clock },
          ?_, Or.inr (by simp [applyEdge])⟩
        show findItem (finishJob st j2 .failed _ false) j2 = some _
        unfold findItem
        rw [finishJob_items]
        exact findItem_transition_self .failed _ hfij
          (by rw [hevj]; rfl) (by rw [hevj]; rfl)
      · left
        refine ⟨w, ?_, hcj⟩
        show findWorker (finishJob st j2 .failed _ false) p = some w
        unfold finishJob
        split
        · show (unbindJob (transition st j2 .failed _).2.workers j2
            false).find? (fun x => x.pid == p) = some w
          rw [transition_workers]
          rw [findWorker_unbindJob hw' j2 false]
          rw [if_neg ?hnef]
          case hnef =>
            intro hcon
            rw [hcj] at hcon
            have : j = j2 := by simpa using hcon
            exact hjj this.symm
        · show findWorker (transition st j2 .failed _).2 p = some w
          rw [findWorker_transition]
          exact hw
    | stopJob q => exact hop.elim
    | kill p2 m sp =>
      cases m with
      | immediate => exact hop.elim
      | graceful =>
        show C8Inv p j (kill st p2 .graceful sp)
        unfold kill
        split
        · exact Or.inl ⟨w, hw, hcj⟩
        · next w0 hw0 =>
          split
          · next hcj0 =>
            left
            have hne : w.pid ≠ p2 := by
              intro hc
              have hp2 : p2 = p := by omega
              subst hp2
              rw [hw'] at hw0
              injection hw0 with hw0
              subst hw0
              rw [hcj0] at hcj
              cases hcj
            exact ⟨w, findWorker_removeSpawn hw hne, hcj⟩
          · next j2 hcj0 =>
            left
            refine ⟨if w.pid == p2 then
                { w with status := .stopping, spawn_on_stop := sp }
              else w, ?_, ?_⟩
            · show (markStopping st.workers p2 sp).find?
                (fun x => x.pid == p) = some _
              rw [findWorker_markStopping hw' p2 sp]
            · split
              · exact hcj
              · exact hcj
    | reclaim p2 =>
      show C8Inv p j (reclaim st p2)
      unfold reclaim
      split
      · exact Or.inl ⟨w, hw, hcj⟩
      · next w0 hw0 =>
        split
        · next hcond =>
          left
          have hne : w.pid ≠ p2 := by
            intro hc
            have hp2 : p2 = p := by omega
            subst hp2
            rw [hw'] at hw0
            injection hw0 with hw0
            subst hw0
            have h2c := (Bool.and_eq_true _ _).mp hcond
            rw [hcj] at h2c
            simp at h2c
          exact ⟨w, findWorker_removeSpawn hw hne, hcj⟩
        · exact Or.inl ⟨w, hw, hcj⟩
    | crash p2 =>
      show C8Inv p j (crash st p2)
      unfold crash
      split
      · exact Or.inl ⟨w, hw, hcj⟩
      · next w0 hw0 =>
        have hw0' : st.workers.find? (fun x => x.pid == p2) = some w0 := hw0
        have hw0m : w0 ∈ st.workers := List.mem_of_find?_eq_some hw0'
        have hw0p : w0.pid = p2 := by
          have := List.find?_some hw0'
          simpa using this
        split
        · next hcj0 =>
          left
          have hne : w.pid ≠ p2 := by
            intro hc
            have hp2 : p2 = p := by omega
            subst hp2
            rw [hw'] at hw0
            injection hw0 with hw0
            subst hw0
            rw [hcj0] at hcj
            cases hcj
          exact ⟨w, findWorker_removeSpawn hw hne, hcj⟩
        · next j2 hcj0 =>
          by_cases hpp : p2 = p
          · subst hpp
            rw [hw'] at hw0
            injection hw0 with hw0
            subst hw0
            rw [hcj] at hcj0
            injection hcj0 with hcj0
            subst hcj0
            right
            refine ⟨applyEdge ij .failed
              { worker := none, prog := none,
                err := some "worker terminated unexpectedly",
                time := st.clock }, ?_, Or.inr (by simp [applyEdge])⟩
            show findItem (removeAndMaybeSpawn
              (transition st _ .failed _).2 p2 true) _ = some _
            unfold findItem
            rw [removeAndMaybeSpawn_items]
            exact findItem_transition_self .failed _ hfij
              (by rw [hevj]; rfl) (by rw [hevj]; rfl)
          · left
            refine ⟨w, ?_, hcj⟩
            have hfw2 : findWorker (transition st j2 .failed
                { worker := none, prog := none,
                  err := some "worker terminated unexpectedly",
                  time := st.clock }).2 p = some w := by
              rw [findWorker_transition]
              exact hw
            have hne : w.pid ≠ p2 := by
              rw [hwp]
              exact fun hc => hpp hc.symm
            exact findWorker_removeSpawn hfw2 hne
  · right
    have ht : i.state.isTerminal = true := by
      rcases hterm with h | h <;> rw [h] <;> rfl
    exact ⟨i, findItem_applyOp_terminal st op hwf.2.2.2.1 hfi ht, hterm⟩

/-- The C8 trace invariant is preserved along any trace of non-cancelling
operations from a reachable state. -/
theorem c8_trace (p j : Nat) (t : List Op) :
    ∀ s : OrchState, Reachable s → (∀ op ∈ t, noCancelOp op) →
      C8Inv p j s → C8Inv p j (applyTrace t s) := by
  induction t with
  | nil =>
    intro s _ _ h
    exact h
  | cons op t2 ih =>
    intro s hs hops h
    show C8Inv p j (applyTrace t2 (applyOp s op))
    exact ih (applyOp s op) (Reachable.step op hs)
      (fun o ho => hops o (List.mem_cons_of_mem _ ho))
      (c8_step p j s op (reachable_wf hs) (hops op (List.mem_cons_self _ _)) h)

/-- Claim C8: after `kill(worker_id, graceful, spawn_replacement=false)`
on a worker bound to job J, the worker is marked `stopping` but still
listed with its job, J is still `evaluating`; and along any continuation
that contains no administrative cancellation (`stopJob` or an immediate
kill), whenever the worker has disappeared from `worker_status()` the
WorkItem of J has reached a normal-execution terminal state — `completed`
or `failed`, never `cancelled` — so the terminal transition happened
before the worker was reclaimed. -/
theorem graceful_kill_job_completes_before_reclaim (s : OrchState)
    (p j : Nat) (w : Worker) (hs : Reachable s)
    (hw : findWorker s p = some w) (hcj : w.current_job_id = some j) :
    (∃ w0, findWorker (kill s p .graceful false) p = some w0 ∧
      w0.status = .stopping ∧ w0.current_job_id = some j) ∧
    (∃ i0, findItem (kill s p .graceful false) j = some i0 ∧
      i0.state = .evaluating) ∧
    (∀ t : List Op, (∀ op ∈ t, noCancelOp op) →
      (∀ w' ∈ (worker_status (applyTrace t (kill s p .graceful false))).1,
        w'.pid ≠ p) →
      ∃ i2, findItem (applyTrace t (kill s p .graceful false)) j = some i2 ∧
        (i2.state = .completed ∨ i2.state = .failed)) := by
  have hwf := reachable_wf hs
  have hw' : s.workers.find? (fun x => x.pid == p) = some w := hw
  have hwm : w ∈ s.workers := List.mem_of_find?_eq_some hw'
  have hwp : (w.pid == p) = true := by
    have := List.find?_some hw'
    simpa using this
  have hks := kill_graceful_state hw hcj false
  have hfw0 : findWorker (kill s p .graceful false) p =
      some { w with status := .stopping, spawn_on_stop := false } := by
    rw [hks]
    show (markStopping s.workers p false).find? (fun x => x.pid == p) = some _
    rw [findWorker_markStopping hw' p false]
    rw [if_pos hwp]
  refine ⟨⟨{ w with status := .stopping, spawn_on_stop := false },
    hfw0, rfl, hcj⟩, ?_, ?_⟩
  · obtain ⟨i0, hfi0, hev0, _, _⟩ := findItem_of_binding hwf hwm hcj
    refine ⟨i0, ?_, hev0⟩
    rw [hks]
    exact hfi0
  · intro t hops hgone
    have hr0 : Reachable (kill s p .graceful false) :=
      Reachable.step (Op.kill p .graceful false) hs
    have hinv0 : C8Inv p j (kill s p .graceful false) :=
      Or.inl ⟨{ w with status := .stopping, spawn_on_stop := false },
        hfw0, hcj⟩
    have hend := c8_trace p j t _ hr0 hops hinv0
    rcases hend with ⟨w2, hw2, _⟩ | ⟨i2, hf2, h2⟩
    · exfalso
      have hw2' : (applyTrace t (kill s p .graceful false)).workers.find?
          (fun x => x.pid == p) = some w2 := hw2
      have hw2m := List.mem_of_find?_eq_some hw2'
      have hw2p : w2.pid = p := by
        have := List.find?_some hw2'
        simpa using this
      exact hgone w2 hw2m hw2p
    · exact ⟨i2, hf2, h2⟩

/-! ## Claim C10: the dashboard helper `formatDuration` -/

/-- Claim C10: `formatDuration` maps every falsy input — the non-number
inputs (`null`/`undefined`/`NaN`, modelled by `none`) and the number 0 —
to `"N/A"` (so a duration of exactly 0 seconds displays as `"N/A"`, not
`"0m 0s"`); for `0 < seconds < 3600` it returns `"<m>m <s>s"` with no
hours component, where `m = floor((seconds mod 3600)/60)` and
`s = round(seconds mod 60)`; and for `seconds ≥ 3600` the result begins
with `floor(seconds/3600)` followed by `"h"`. -/
theorem formatDuration_spec :
    (formatDuration none = "N/A" ∧ formatDuration (some 0) = "N/A") ∧
    (∀ q : ℚ, 0 < q → q < 3600 →
      formatDuration (some q) =
        toString (jsFloor (jsMod q 3600 / 60)) ++ "m " ++
        toString (jsRound (jsMod q 60)) ++ "s") ∧
    (∀ q : ℚ, 3600 ≤ q →
      ∃ rest, formatDuration (some q) =
        toString (jsFloor (q / 3600)) ++ "h" ++ rest) := by
  have hbody : ∀ q : ℚ, formatDuration (some q) =
      if q = 0 then "N/A"
      else if 0 < jsFloor (q / 3600) then
        toString (jsFloor (q / 3600)) ++ "h " ++
          toString (jsFloor (jsMod q 3600 / 60)) ++ "m " ++
          toString (jsRound (jsMod q 60)) ++ "s"
      else
        toString (jsFloor (jsMod q 3600 / 60)) ++ "m " ++
          toString (jsRound (jsMod q 60)) ++ "s" := fun q => rfl
  refine ⟨⟨rfl, rfl⟩, ?_, ?_⟩
  · intro q h0 hlt
    have hne : ¬ (q = 0) := ne_of_gt h0
    have hfl : jsFloor (q / 3600) = 0 := by
      unfold jsFloor
      rw [Int.floor_eq_zero_iff]
      refine Set.mem_Ico.mpr ⟨?_, ?_⟩
      · exact div_nonneg h0.le (by norm_num)
      · rw [div_lt_one (by norm_num)]
        exact hlt
    rw [hbody q, if_neg hne, hfl]
    rw [if_neg (lt_irrefl (0 : ℤ))]
  · intro q hge
    have h0 : (0 : ℚ) < q := lt_of_lt_of_le (by norm_num) hge
    have hne : ¬ (q = 0) := ne_of_gt h0
    have hfl : 0 < jsFloor (q / 3600) := by
      unfold jsFloor
      have h1 : (1 : ℤ) ≤ ⌊q / 3600⌋ := by
        rw [Int.le_floor]
        rw [le_div_iff₀ (by norm_num : (0:ℚ) < 3600)]
        push_cast
        linarith
      omega
    refine ⟨" " ++ toString (jsFloor (jsMod q 3600 / 60)) ++ "m " ++
      toString (jsRound (jsMod q 60)) ++ "s", ?_⟩
    rw [hbody q, if_neg hne, if_pos hfl]
    simp only [String.append_assoc]
    rfl

/-! ## Concrete states used by the witnesses -/

/-- One submitted job on a one-worker pool. -/
def sW1 : OrchState := applyOp (initState 1) (.submit "Q1" "payload")

/-- The job dispatched to worker 0. -/
def sW2 : OrchState := applyOp sW1 (.dispatch 0)

/-- The job cancelled by an administrative stop. -/
def sW3 : OrchState := applyOp sW2 (.stopJob "Q1")

theorem reachable_sW1 : Reachable sW1 :=
  Reachable.step _ (Reachable.init 1)

theorem reachable_sW2 : Reachable sW2 :=
  Reachable.step _ reachable_sW1

theorem reachable_sW3 : Reachable sW3 :=
  Reachable.step _ reachable_sW2

/-- Worker 0 as it appears in `sW2`: bound to job 0. -/
def wW2 : Worker :=
  { worker_id := 0, pid := 0, status := .running, current_job_id := some 0,
    spawn_on_stop := false, cpu_percent := 0, memory_percent := 0,
    uptime_seconds := 0, jobs_completed := 0 }

/-- Job 0 as it appears in `sW2`: `evaluating` on worker 0. -/
def iW2 : WorkItem :=
  { job_id := 0, quiz_id := "Q1", payload := "payload", state := .evaluating,
    enqueued_at := 0, started_at := some 1, finished_at := none,
    error_message := none, assigned_worker_id := some 0,
    progress := { evaluated_count := 0, total_count := 0, phase := "queued" } }

/-- Job 0 as it appears in `sW3`: `cancelled`. -/
def iW3 : WorkItem :=
  { job_id := 0, quiz_id := "Q1", payload := "payload", state := .cancelled,
    enqueued_at := 0, started_at := some 1, finished_at := some 1,
    error_message := none, assigned_worker_id := some 0,
    progress := { evaluated_count := 0, total_count := 0, phase := "queued" } }

/-! ## Witnesses -/

theorem dedup_invariant_all_ops_witness :
    activeCount sW2 "Q1" ≤ 1 ∧
    activeCount (applyOp (initState 1) (Op.submit "Q1" "payload")) "Q1" ≤ 1 :=
  ⟨dedup_invariant_all_ops.1 sW2 reachable_sW2 "Q1",
   dedup_invariant_all_ops.2 (initState 1) (Op.submit "Q1" "payload")
     (fun q => by simp [activeCount, initState]) "Q1"⟩

theorem kill_immediate_cancels_and_replaces_witness :
    (∃ i2, findItem (kill sW2 0 .immediate true) 0 = some i2 ∧
      i2.state = .cancelled ∧ i2.state ≠ .failed) ∧
    (kill sW2 0 .immediate true).workers.length = sW2.workers.length ∧
    (∀ w' ∈ (worker_status (kill sW2 0 .immediate true)).1, w'.pid ≠ 0) :=
  kill_immediate_cancels_and_replaces sW2 0 0 wW2 reachable_sW2 rfl rfl

theorem transition_legal_edges_only_witness :
    (transition sW2 0 .queued
      { worker := none, prog := none, err := none, time := 0 }).1 =
      .illegalTransition :=
  (transition_legal_edges_only sW2 0 .queued
    { worker := none, prog := none, err := none, time := 0 } iW2 rfl).2.1 rfl

theorem submit_duplicate_active_job_witness :
    (submit sW1 "Q1" "p2").1 = .duplicateActiveJob ∧
    (submit sW1 "Q1" "p2").2 = sW1 ∧
    activeCount (submit sW1 "Q1" "p2").2 "Q1" = 1 :=
  (submit_duplicate_active_job sW1 "Q1" "p2" reachable_sW1).1 rfl

theorem dispatcher_fifo_and_exclusive_witness :
    (∃ i2, findItem (dispatch sW1 0) 0 = some i2 ∧
      i2.state = .evaluating ∧ i2.assigned_worker_id = some 0) ∧
    (∃ w2, findWorker (dispatch sW1 0) 0 = some w2 ∧
      w2.current_job_id = some 0) := by
  have h := (dispatcher_fifo_and_exclusive sW1 reachable_sW1).1 0
    (initWorker 0) rfl rfl (newItem (initState 1) "Q1" "payload") rfl
  exact ⟨h.2.1, h.2.2⟩

theorem crash_fails_job_and_restores_fleet_witness :
    (∃ i2, findItem (crash sW2 0) 0 = some i2 ∧ i2.state = .failed ∧
      i2.error_message = some "worker terminated unexpectedly" ∧
      i2.error_message ≠ some "" ∧ i2.state.isTerminal = true) ∧
    (crash sW2 0).workers.length = sW2.workers.length :=
  crash_fails_job_and_restores_fleet sW2 0 0 wW2 reachable_sW2 rfl rfl

theorem cancellation_wins_over_progress_witness :
    applyTrace ([⟨3, 10, "evaluating"⟩].map
      (fun pr => Op.progress 0 pr)) sW3 = sW3 ∧
    findItem (applyTrace ([⟨3, 10, "evaluating"⟩].map
      (fun pr => Op.progress 0 pr)) sW3) 0 = some iW3 :=
  cancellation_wins_over_progress sW3 0 iW3 rfl rfl [⟨3, 10, "evaluating"⟩]

theorem graceful_kill_job_completes_before_reclaim_witness :
    (∃ w0, findWorker (kill sW2 0 .graceful false) 0 = some w0 ∧
      w0.status = .stopping ∧ w0.current_job_id = some 0) ∧
    (∃ i0, findItem (kill sW2 0 .graceful false) 0 = some i0 ∧
      i0.state = .evaluating) ∧
    (∀ t : List Op, (∀ op ∈ t, noCancelOp op) →
      (∀ w' ∈ (worker_status (applyTrace t (kill sW2 0 .graceful false))).1,
        w'.pid ≠ 0) →
      ∃ i2, findItem (applyTrace t (kill sW2 0 .graceful false)) 0 = some i2 ∧
        (i2.state = .completed ∨ i2.state = .failed)) :=
  graceful_kill_job_completes_before_reclaim sW2 0 0 wW2 reachable_sW2 rfl rfl

theorem formatDuration_spec_witness : formatDuration (some 125) = "2m 5s" := by
  have h := formatDuration_spec.2.1 125 (by norm_num) (by norm_num)
  have h1 : jsFloor (jsMod 125 3600 / 60) = 2 := by
    norm_num [jsFloor, jsMod, jsTrunc, Rat.floor_def]
  have h2 : jsRound (jsMod 125 60) = 5 := by
    norm_num [jsRound, jsMod, jsTrunc, Rat.floor_def]
  rw [h, h1, h2]
  rfl

end DescriptiveEval
